import Mathlib

set_option maxRecDepth 10000

/-!
Verification development for the RSA-4096 big-integer / Montgomery / RSA core.

The repository ships only test harnesses; the core library (`rsa_4096.h` /
its implementation: `bigint_*`, `extended_gcd_full`, `montgomery_ctx_*`,
`rsa_4096_*`) is declared and exercised by the tests but its source is not
present.  Following the specification, the core is reconstructed here as a
shallow embedding: big integers are least-significant-first lists of 32-bit
words valued in `Nat`, fallible operations return `Except RsaError`, and every
loop is fuel-bounded.  Definitions whose doc comment starts with
`Modelled from the spec:` embed routines whose C source is missing and are
written to follow the specification text for that routine.
-/

/-- Error codes of the RSA-4096 core API (spec section 7). -/
inductive RsaError where
  | parseError
  | capacityExceeded
  | overflow
  | underflow
  | invalidModulus
  | notInvertible
  | iterationLimitExceeded
  | contextNotActive
  | messageTooLarge
  | ciphertextTooLarge
  | bufferTooSmall
  deriving DecidableEq

/-- One big-integer word is 32 bits; this is 2^32, the word radix. -/
def W32 : Nat := 4294967296

/-- Modelled from the spec: the compile-time word capacity `BIGINT_4096_WORDS`
of a `bigint_t` (enough words for 4096+ bits plus Montgomery headroom; the
header that defines the macro is not in the repository). -/
def BIGINT_4096_WORDS : Nat := 256

/-- Fuel-bounded little-endian base-`b` digit extraction.  Structural
recursion on the fuel keeps it kernel-reducible; with fuel at least `n` it
agrees with `Nat.digits b n` (proved below). -/
def natDigitsF (b : Nat) : Nat → Nat → List Nat
  | 0, _ => []
  | fuel + 1, n => if n = 0 then [] else n % b :: natDigitsF b fuel (n / b)

/-- Fuel-bounded bit-length helper (structural recursion on fuel). -/
def bitlenF : Nat → Nat → Nat
  | 0, _ => 0
  | fuel + 1, n => if n = 0 then 0 else bitlenF fuel (n / 2) + 1

/-- Bit length of a natural number: index of the highest set bit plus one,
`0` for `0` (spec section 4.1). -/
def bitlen (n : Nat) : Nat := bitlenF n n

/-- Modelled from the spec: the `bigint_t` value type.  An ordered sequence of
32-bit words, least-significant first, with a separate count of significant
words.  Words at or above `used` are undefined in the C object, so the model
keeps exactly the `used` defined words and `used` is the list length. -/
structure bigint_t where
  words : List Nat
  deriving DecidableEq

/-- Significant-word count of a big integer (the C `used` field). -/
def bigint_t.used (b : bigint_t) : Nat := b.words.length

/-- Numeric value of a big integer (radix-2^32, least-significant first). -/
def bigint_to_nat (b : bigint_t) : Nat := Nat.ofDigits W32 b.words

/-- Big integer with a given numeric value, in normalized form. -/
def bigint_ofNat (n : Nat) : bigint_t := ⟨natDigitsF W32 n n⟩

/-- Well-formedness: every word fits in 32 bits, the word count is within
capacity, and the representation is normalized (no zero leading word). -/
def bigint_wf (b : bigint_t) : Prop :=
  (∀ w ∈ b.words, w < W32) ∧ b.words.length ≤ BIGINT_4096_WORDS ∧
    (∀ h : b.words ≠ [], b.words.getLast h ≠ 0)

/-- Modelled from the spec: `bigint_init`, producing the zero value. -/
def bigint_init : bigint_t := ⟨[]⟩

/-- Modelled from the spec: `bigint_set_u32` sets `used` to 0 or 1 and word 0
to the given 32-bit value. -/
def bigint_set_u32 (v : Nat) : bigint_t := if v = 0 then ⟨[]⟩ else ⟨[v % W32]⟩

/-- Modelled from the spec: parity test `bigint_is_odd`; examines bit 0 of
word 0 only, and a value with `used == 0` is even. -/
def bigint_is_odd (b : bigint_t) : Bool :=
  match b.words with
  | [] => false
  | w :: _ => w % 2 = 1

/-- Modelled from the spec: `bigint_bit_length`, computed from the top word:
32 bits for each full word below the top plus the bit length of the top
word; 0 for the zero value. -/
def bigint_bit_length (b : bigint_t) : Nat :=
  match h : b.words with
  | [] => 0
  | _ :: _ => 32 * (b.words.length - 1) + bitlen (b.words.getLast (by simp [h]))

/-- Big-endian lexicographic word comparison of two equal-length word lists:
-1, 0 or 1 (helper of `bigint_compare`). -/
def cmpWordsBE : List Nat → List Nat → Int
  | [], [] => 0
  | x :: xs, y :: ys => if x < y then -1 else if y < x then 1 else cmpWordsBE xs ys
  | _, _ => 0

/-- Modelled from the spec: `bigint_compare`; compares by `used` first, then
by word contents from the most significant word down. -/
def bigint_compare (a b : bigint_t) : Int :=
  if a.words.length < b.words.length then -1
  else if b.words.length < a.words.length then 1
  else cmpWordsBE a.words.reverse b.words.reverse

/-- Drop high-order zero words so that the leading word is nonzero
(renormalization after arithmetic). -/
def trimZeros (l : List Nat) : List Nat := ((l.reverse).dropWhile (· = 0)).reverse

/-- Word-wise addition with carry propagation, least-significant first. -/
def addWords : List Nat → List Nat → Nat → List Nat
  | [], [], c => if c = 0 then [] else [c % W32]
  | x :: xs, [], c => (x + c) % W32 :: addWords xs [] ((x + c) / W32)
  | [], y :: ys, c => (y + c) % W32 :: addWords [] ys ((y + c) / W32)
  | x :: xs, y :: ys, c => (x + y + c) % W32 :: addWords xs ys ((x + y + c) / W32)

/-- Word-wise subtraction with borrow propagation, least-significant first;
callers guarantee the minuend is at least the subtrahend. -/
def subWords : List Nat → List Nat → Nat → List Nat
  | [], _, _ => []
  | x :: xs, [], br => (x + W32 - br) % W32 :: subWords xs [] (if x < br then 1 else 0)
  | x :: xs, y :: ys, br =>
      (x + W32 - (y + br)) % W32 :: subWords xs ys (if x < y + br then 1 else 0)

/-- Modelled from the spec: `bigint_add`; word-wise with carry, renormalized,
failing with `Overflow` if the result needs more than the capacity. -/
def bigint_add (a b : bigint_t) : Except RsaError bigint_t :=
  let ws := trimZeros (addWords a.words b.words 0)
  if BIGINT_4096_WORDS < ws.length then .error .overflow else .ok ⟨ws⟩

/-- Modelled from the spec: `bigint_sub`; requires `a ≥ b` (checked via
`bigint_compare`, failing with `Underflow` otherwise), word-wise with borrow,
result renormalized (trailing zero words trimmed from `used`). -/
def bigint_sub (a b : bigint_t) : Except RsaError bigint_t :=
  if bigint_compare a b < 0 then .error .underflow
  else .ok ⟨trimZeros (subWords a.words b.words 0)⟩

/-- Decimal digit test for parsing. -/
def isDecDigit (c : Char) : Bool := '0' ≤ c && c ≤ '9'

/-- Decimal digit value of a character. -/
def decVal (c : Char) : Nat := c.toNat - 48

/-- Hexadecimal digit test for parsing (case-insensitive, spec 4.1). -/
def isHexDigitCh (c : Char) : Bool :=
  ('0' ≤ c && c ≤ '9') || ('A' ≤ c && c ≤ 'F') || ('a' ≤ c && c ≤ 'f')

/-- Hexadecimal digit value of a character. -/
def hexVal (c : Char) : Nat :=
  if c ≤ '9' then c.toNat - 48 else if c ≤ 'F' then c.toNat - 55 else c.toNat - 87

/-- Character for a decimal digit. -/
def decDigitChar (d : Nat) : Char :=
  (['0', '1', '2', '3', '4', '5', '6', '7', '8', '9']).getD d '0'

/-- Character for a hexadecimal digit (upper case). -/
def hexDigitChar (d : Nat) : Char :=
  (['0', '1', '2', '3', '4', '5', '6', '7', '8', '9',
    'A', 'B', 'C', 'D', 'E', 'F']).getD d '0'

/-- Modelled from the spec: `bigint_from_decimal`.  Accepts only decimal
digits, fails with `ParseError` on empty input, on any other character, or on
a value whose significant-word count exceeds the capacity. -/
def bigint_from_decimal (s : List Char) : Except RsaError bigint_t :=
  if s = [] then .error .parseError
  else if s.all isDecDigit then
    let v := s.foldl (fun acc c => acc * 10 + decVal c) 0
    let ws := natDigitsF W32 v v
    if BIGINT_4096_WORDS < ws.length then .error .parseError else .ok ⟨ws⟩
  else .error .parseError

/-- Modelled from the spec: `bigint_from_hex` (case-insensitive hex parse
with the same failure contract as the decimal parse). -/
def bigint_from_hex (s : List Char) : Except RsaError bigint_t :=
  if s = [] then .error .parseError
  else if s.all isHexDigitCh then
    let v := s.foldl (fun acc c => acc * 16 + hexVal c) 0
    let ws := natDigitsF W32 v v
    if BIGINT_4096_WORDS < ws.length then .error .parseError else .ok ⟨ws⟩
  else .error .parseError

/-- Hexadecimal character string (most significant digit first) of a natural
number; `"0"` for zero. -/
def natToHexChars (n : Nat) : List Char :=
  if n = 0 then ['0'] else ((natDigitsF 16 n n).map hexDigitChar).reverse

/-- Decimal character string (most significant digit first) of a natural
number; `"0"` for zero. -/
def natToDecChars (n : Nat) : List Char :=
  if n = 0 then ['0'] else ((natDigitsF 10 n n).map decDigitChar).reverse

/-- Modelled from the spec: `bigint_to_hex` into a caller-supplied buffer of
given capacity; fails with `BufferTooSmall` if the formatted value plus
terminator does not fit. -/
def bigint_to_hex (x : bigint_t) (bufsize : Nat) : Except RsaError (List Char) :=
  let s := natToHexChars (bigint_to_nat x)
  if bufsize < s.length + 1 then .error .bufferTooSmall else .ok s

/-- Modelled from the spec: `bigint_to_decimal` into a caller-supplied buffer
of given capacity; fails with `BufferTooSmall` if the formatted value plus
terminator does not fit. -/
def bigint_to_decimal (x : bigint_t) (bufsize : Nat) : Except RsaError (List Char) :=
  let s := natToDecChars (bigint_to_nat x)
  if bufsize < s.length + 1 then .error .bufferTooSmall else .ok s

/-- Result of the extended GCD / modular-inverse routine: the inverse on
success, a distinct not-invertible result when the gcd is not 1, or the
iteration-limit error (spec sections 4.2 and 7). -/
inductive EgcdResult where
  | ok (x : Nat)
  | notInvertible
  | iterationLimitExceeded
  deriving DecidableEq

/-- Loop state of the binary extended GCD: the two working operands `u`, `v`
and their signed Bezout cofactors with respect to the inputs `a`, `m`
(`x1*a + y1*m = u` and `x2*a + y2*m = v`). -/
structure EgcdState where
  u : Nat
  v : Nat
  x1 : Int
  y1 : Int
  x2 : Int
  y2 : Int
  deriving DecidableEq

/-- Outcome of the fuel-bounded binary GCD loop: either the final operand
(the gcd) with its cofactors, or the iteration cap was reached. -/
inductive EgcdLoopOut where
  | done (g : Nat) (x : Int) (y : Int)
  | limit
  deriving DecidableEq

/-- Halve a Bezout cofactor pair while preserving `x*a + y*m = even value`:
if both cofactors are even halve them directly, otherwise apply the standard
`(x+m)/2, (y-a)/2` correction (spec 4.2: shift-right with sign/parity
bookkeeping for the co-factors). -/
def halfCof (a m : Nat) (x y : Int) : Int × Int :=
  if x % 2 = 0 ∧ y % 2 = 0 then (x / 2, y / 2) else ((x + m) / 2, (y - a) / 2)

/-- One iteration of the binary extended GCD: halve an even operand, or
subtract the smaller odd operand from the larger (spec 4.2). -/
def egcdStep (a m : Nat) (s : EgcdState) : EgcdState :=
  if s.u % 2 = 0 then
    let p := halfCof a m s.x1 s.y1
    ⟨s.u / 2, s.v, p.1, p.2, s.x2, s.y2⟩
  else if s.v % 2 = 0 then
    let p := halfCof a m s.x2 s.y2
    ⟨s.u, s.v / 2, s.x1, s.y1, p.1, p.2⟩
  else if s.v ≤ s.u then
    ⟨s.u - s.v, s.v, s.x1 - s.x2, s.y1 - s.y2, s.x2, s.y2⟩
  else
    ⟨s.u, s.v - s.u, s.x1, s.y1, s.x2 - s.x1, s.y2 - s.y1⟩

/-- Fuel-bounded binary extended GCD loop: runs until the first operand
reaches zero (the second then holds the gcd) or the fuel (iteration cap) is
exhausted, in which case the cap is reported as reached. -/
def egcdLoop (a m : Nat) : Nat → EgcdState → EgcdLoopOut
  | 0, _ => .limit
  | fuel + 1, s =>
      if s.u = 0 then .done s.v s.x2 s.y2 else egcdLoop a m fuel (egcdStep a m s)

/-- Initial loop state for inputs `a`, `m`: `u = a` with cofactors `(1, 0)`
and `v = m` with cofactors `(0, 1)`. -/
def egcdInit (a m : Nat) : EgcdState := ⟨a, m, 1, 0, 0, 1⟩

/-- Iteration cap of the binary extended GCD, proportional to the operand
bit lengths (spec 4.2 and 9: a cap computed from input bit-length, sized so
that any legitimate pair terminates before it). -/
def gcdIterCap (a m : Nat) : Nat := 2 * (bitlen a + bitlen m) + 4

/-- Modelled from the spec: `extended_gcd_full` (binary-GCD modular inverse,
source not in the repository).  Given `a` and `m` it returns the inverse of
`a` modulo `m` when `gcd(a, m) = 1`, the distinct `NotInvertible` result when
`gcd(a, m) ≠ 1`, and `IterationLimitExceeded` if the bit-length-proportional
iteration cap is reached.  Zero operands are resolved directly; a pair of
even operands has gcd at least 2 and is immediately not invertible; the
returned inverse is the second Bezout cofactor reduced into `[0, m)`. -/
def extended_gcd_full (a m : Nat) : EgcdResult :=
  if m = 0 then (if a = 1 then .ok 1 else .notInvertible)
  else if a = 0 then (if m = 1 then .ok 0 else .notInvertible)
  else if a % 2 = 0 ∧ m % 2 = 0 then .notInvertible
  else
    match egcdLoop a m (gcdIterCap a m) (egcdInit a m) with
    | .limit => .iterationLimitExceeded
    | .done g x _ => if g = 1 then .ok ((x % (m : Int)).toNat) else .notInvertible

/-- Modelled from the spec: the Montgomery context derived from a modulus
(read-only after initialization): the modulus, its word length, the implicit
radix word length, the word-level constant `n' = -n^(-1) mod 2^32`, the
optional precomputed `R^(-1) mod n`, and the active flag. -/
structure montgomery_ctx_t where
  n : Nat
  n_words : Nat
  r_words : Nat
  n_prime : Nat
  r_inv : Option Nat
  is_active : Bool
  deriving DecidableEq

/-- An uninitialized (zeroed) Montgomery context, as after `bigint_init`-style
zero initialization of the owning structure. -/
def montgomery_ctx_zero : montgomery_ctx_t := ⟨0, 0, 0, 0, none, false⟩

/-- Word length (number of radix-2^32 digits) of a natural number. -/
def wordLen (n : Nat) : Nat := (natDigitsF W32 n n).length

/-- Threshold above which the optional `R^(-1) mod n` precomputation is
skipped (spec 4.3: above e.g. 32 words the optional constant is omitted and
the context is still activated). -/
def MONT_RINV_WORD_LIMIT : Nat := 32

/-- Optional Montgomery precomputation of `R^(-1) mod n`: performed through
the full extended GCD only when the modulus stays at or below the word
threshold, skipped (absent) above it (spec 4.3). -/
def montgomery_rinv_opt (n : Nat) : Option Nat :=
  if wordLen n ≤ MONT_RINV_WORD_LIMIT then
    match extended_gcd_full (W32 ^ wordLen n % n) n with
    | .ok y => some y
    | _ => none
  else none

/-- Modelled from the spec: `montgomery_ctx_init`.  Takes the caller's
context object and the modulus; fails with `InvalidModulus` on an even or
zero modulus, leaving the caller's context unchanged.  Otherwise computes the
word count, `n' = -(n^(-1)) mod 2^32` via the single-word special case of the
extended GCD, optionally `R^(-1) mod n` for small word counts, and activates
the context. -/
def montgomery_ctx_init (ctx : montgomery_ctx_t) (n : Nat) :
    Except RsaError Unit × montgomery_ctx_t :=
  if n = 0 then (.error .invalidModulus, ctx)
  else if n % 2 = 0 then (.error .invalidModulus, ctx)
  else
    match extended_gcd_full (n % W32) W32 with
    | .ok x =>
        (.ok (), ⟨n, wordLen n, wordLen n + 1, (W32 - x) % W32, montgomery_rinv_opt n, true⟩)
    | _ => (.error .iterationLimitExceeded, ctx)

/-- Word-by-word Montgomery reduction loop: each of the `k` steps cancels the
lowest word by adding `((t mod 2^32) * n' mod 2^32) * n` and shifting one
word right (spec 4.3, the standard unchanged REDC reduction). -/
def redcLoop (n nprime : Nat) : Nat → Nat → Nat
  | 0, t => t
  | k + 1, t => redcLoop n nprime k ((t + t % W32 * nprime % W32 * n) / W32)

/-- Montgomery reduction `t ↦ t * R^(-1) mod n` for `t < R * n`: the word
loop leaves a value below `2n`, and a single conditional subtraction
normalizes it below `n` (spec 4.3). -/
def mont_redc (ctx : montgomery_ctx_t) (t : Nat) : Nat :=
  let t' := redcLoop ctx.n ctx.n_prime ctx.n_words t
  if ctx.n ≤ t' then t' - ctx.n else t'

/-- Montgomery-domain REDC multiply `a, b ↦ a * b * R^(-1) mod n`
(spec 4.3). -/
def mont_mul (ctx : montgomery_ctx_t) (a b : Nat) : Nat := mont_redc ctx (a * b)

/-- Most-significant-first binary digits of an exponent. -/
def expBitsMSB (e : Nat) : List Nat := (natDigitsF 2 e e).reverse

/-- Square-and-multiply loop over the exponent bits from most significant to
least significant, in the Montgomery domain (spec 4.1). -/
def modExpLoop (ctx : montgomery_ctx_t) (bb : Nat) : List Nat → Nat → Nat
  | [], acc => acc
  | d :: rest, acc =>
      let s := mont_mul ctx acc acc
      modExpLoop ctx bb rest (if d = 1 then mont_mul ctx s bb else s)

/-- Modelled from the spec: `bigint_mod_exp` computing
`base ^ exp mod modulus` by square-and-multiply over the exponent bits, both
multiplications performed through Montgomery REDC.  Fails with
`InvalidModulus` on an even (or zero) modulus and with `ContextNotActive` if
the internally built Montgomery context is not active. -/
def bigint_mod_exp (base exp n : Nat) : Except RsaError Nat :=
  if n = 0 then .error .invalidModulus
  else if n % 2 = 0 then .error .invalidModulus
  else
    match montgomery_ctx_init montgomery_ctx_zero n with
    | (.error e, _) => .error e
    | (.ok _, ctx) =>
        if ctx.is_active = false then .error .contextNotActive
        else
          let r := W32 ^ ctx.n_words
          let bb := base % n * r % n
          let acc := modExpLoop ctx bb (expBitsMSB exp) (r % n)
          .ok (mont_redc ctx acc)

/-- Modelled from the spec: the RSA key structure: modulus, exponent, the
Montgomery context for the modulus, and the public/private flag. -/
structure rsa_4096_key_t where
  n : bigint_t
  exponent : bigint_t
  mont_ctx : montgomery_ctx_t
  is_private : Bool
  deriving DecidableEq

/-- Modelled from the spec: `rsa_4096_init`, zero-initializing a key. -/
def rsa_4096_init : rsa_4096_key_t := ⟨bigint_init, bigint_init, montgomery_ctx_zero, false⟩

/-- Modelled from the spec: `rsa_4096_load_key`.  Parses modulus and exponent
from decimal, builds the Montgomery context (rejecting an even modulus
through it), and stores the private flag; fails with the first parse or
context error encountered. -/
def rsa_4096_load_key (modulus_str exponent_str : List Char) (priv : Bool) :
    Except RsaError rsa_4096_key_t :=
  match bigint_from_decimal modulus_str with
  | .error e => .error e
  | .ok nb =>
      match bigint_from_decimal exponent_str with
      | .error e => .error e
      | .ok eb =>
          match montgomery_ctx_init montgomery_ctx_zero (bigint_to_nat nb) with
          | (.error e, _) => .error e
          | (.ok _, ctx) => .ok ⟨nb, eb, ctx, priv⟩

/-- Modelled from the spec: `rsa_4096_encrypt`.  Parses the decimal message,
fails with `MessageTooLarge` if it is not strictly less than the modulus,
computes `message ^ e mod n` via `bigint_mod_exp`, and serializes the result
to hex into the caller's buffer. -/
def rsa_4096_encrypt (key : rsa_4096_key_t) (message : List Char) (bufsize : Nat) :
    Except RsaError (List Char) :=
  match bigint_from_decimal message with
  | .error e => .error e
  | .ok mb =>
      if bigint_compare mb key.n < 0 then
        match bigint_mod_exp (bigint_to_nat mb) (bigint_to_nat key.exponent)
            (bigint_to_nat key.n) with
        | .error e => .error e
        | .ok c => bigint_to_hex (bigint_ofNat c) bufsize
      else .error .messageTooLarge

/-- Modelled from the spec: `rsa_4096_decrypt`.  Parses the hex ciphertext,
fails with `CiphertextTooLarge` if it is not strictly less than the modulus,
computes `ciphertext ^ d mod n`, and serializes the result to decimal into
the caller's buffer. -/
def rsa_4096_decrypt (key : rsa_4096_key_t) (ciphertext : List Char) (bufsize : Nat) :
    Except RsaError (List Char) :=
  match bigint_from_hex ciphertext with
  | .error e => .error e
  | .ok cb =>
      if bigint_compare cb key.n < 0 then
        match bigint_mod_exp (bigint_to_nat cb) (bigint_to_nat key.exponent)
            (bigint_to_nat key.n) with
        | .error e => .error e
        | .ok p => bigint_to_decimal (bigint_ofNat p) bufsize
      else .error .ciphertextTooLarge

/-- The per-word expression of `generate_4096_bit_test_modulus`
(test_4096_specific.c line 32): `0x12345678 + (uint32_t)(i * 0x1234)`, with
the 32-bit wraparound of the cast and of the addition made explicit. -/
def genPatternWord (i : Nat) : Nat := (305419896 + i * 4660 % W32) % W32

/-- The test-data generator `generate_4096_bit_test_modulus` from
test_4096_specific.c lines 24-51, parametrized by the unknown macro value
`BIGINT_4096_WORDS` (`cap`): write the pattern words for `i < 120` (and
`i < cap`), append the high word `0x80000000` if capacity remains, and force
word 0 odd. -/
def generate_4096_bit_test_modulus (cap : Nat) : bigint_t :=
  let base := (List.range (min 120 cap)).map genPatternWord
  let withTop := if base.length < cap then base ++ [2147483648] else base
  match withTop with
  | [] => ⟨[]⟩
  | w :: ws => ⟨(w ||| 1) :: ws⟩

/-- The explicit word list that `generate_4096_bit_test_modulus` produces
whenever the capacity is at least 121 words. -/
def genExpectedWords : List Nat :=
  (List.range 121).map fun i =>
    if i = 0 then 305419897 else if i = 120 then 2147483648 else 305419896 + i * 4660

/-- Termination measure of the binary GCD loop: twice the bit lengths of the
operands plus their parities; every loop iteration strictly decreases it. -/
def egcdPhi (s : EgcdState) : Nat :=
  2 * bitlen s.u + 2 * bitlen s.v + s.u % 2 + s.v % 2

/-- Loop invariant of the binary extended GCD: the second operand stays
positive, at least one operand is odd, the gcd of the operands equals the gcd
of the inputs, and both Bezout cofactor equations hold. -/
def EgcdInv (a m : Nat) (s : EgcdState) : Prop :=
  1 ≤ s.v ∧ (s.u % 2 = 1 ∨ s.v % 2 = 1) ∧ Nat.gcd s.u s.v = Nat.gcd a m ∧
    s.x1 * a + s.y1 * m = (s.u : Int) ∧ s.x2 * a + s.y2 * m = (s.v : Int)

/-- Unwrap a key-loading result, falling back to the zero key on error
(used only to name concrete keys in witness statements). -/
def keyOr (r : Except RsaError rsa_4096_key_t) : rsa_4096_key_t :=
  match r with
  | .ok k => k
  | .error _ => rsa_4096_init

/-- The public key `(n, e) = (143, 7)` of the known small-key test. -/
def key143pub : rsa_4096_key_t := keyOr (rsa_4096_load_key ['1', '4', '3'] ['7'] false)

/-- The private key `(n, d) = (143, 103)` of the known small-key test. -/
def key143priv : rsa_4096_key_t :=
  keyOr (rsa_4096_load_key ['1', '4', '3'] ['1', '0', '3'] true)

/-- A concrete odd modulus of 34 words (1057 bits), above the 32-word
threshold for the optional Montgomery precomputation. -/
def bigOddModulus : Nat := 2 ^ 1056 + 1

/-- With enough fuel, the fuel-bounded digit extraction agrees with
`Nat.digits`. -/
theorem natDigitsF_eq_digits (b : Nat) (hb : 2 ≤ b) :
    ∀ f n, n ≤ f → natDigitsF b f n = Nat.digits b n := by
  intro f
  induction f with
  | zero =>
      intro n hn
      interval_cases n
      simp [natDigitsF]
  | succ f ih =>
      intro n hn
      by_cases hz : n = 0
      · subst hz; simp [natDigitsF]
      · have hpos : 0 < n := Nat.pos_of_ne_zero hz
        rw [natDigitsF, if_neg hz, Nat.digits_def' (by omega : 1 < b) hpos]
        have hdiv : n / b < n := Nat.div_lt_self hpos (by omega)
        rw [ih (n / b) (by omega)]

/-- The fuel argument of `bitlenF` is irrelevant once it is at least the
input. -/
theorem bitlenF_congr : ∀ f g n, n ≤ f → n ≤ g → bitlenF f n = bitlenF g n := by
  intro f
  induction f with
  | zero =>
      intro g n hf _
      interval_cases n
      cases g <;> simp [bitlenF]
  | succ f ih =>
      intro g n hf hg
      cases g with
      | zero =>
          interval_cases n
          simp [bitlenF]
      | succ g =>
          by_cases hz : n = 0
          · subst hz; simp [bitlenF]
          · have hpos : 0 < n := Nat.pos_of_ne_zero hz
            have hdiv : n / 2 < n := Nat.div_lt_self hpos (by omega)
            rw [bitlenF, if_neg hz, bitlenF, if_neg hz,
              ih g (n / 2) (by omega) (by omega)]

/-- Recursion equation of `bitlen` on nonzero input. -/
theorem bitlen_rec (n : Nat) (hn : n ≠ 0) : bitlen n = bitlen (n / 2) + 1 := by
  cases n with
  | zero => exact absurd rfl hn
  | succ m =>
      show bitlenF (m + 1) (m + 1) = bitlen ((m + 1) / 2) + 1
      rw [bitlenF, if_neg hn]
      have h1 : (m + 1) / 2 < m + 1 := Nat.div_lt_self (by omega) (by omega)
      rw [bitlenF_congr m ((m + 1) / 2) ((m + 1) / 2) (by omega) le_rfl]
      rfl

/-- The bit length of a positive number is positive. -/
theorem bitlen_pos (n : Nat) (hn : n ≠ 0) : 1 ≤ bitlen n := by
  rw [bitlen_rec n hn]; omega

/-- Bit length is monotone. -/
theorem bitlen_mono : ∀ n m, m ≤ n → bitlen m ≤ bitlen n := by
  intro n
  induction n using Nat.strong_induction_on with
  | _ n ih =>
      intro m hmn
      by_cases hm : m = 0
      · subst hm; simp [bitlen, bitlenF]
      · have hn : n ≠ 0 := by omega
        rw [bitlen_rec m hm, bitlen_rec n hn]
        have : n / 2 < n := Nat.div_lt_self (by omega) (by omega)
        have := ih (n / 2) this (m / 2) (Nat.div_le_div_right hmn)
        omega

/-- Every iteration of the binary GCD loop strictly decreases the
termination measure. -/
theorem egcdStep_phi_lt (a m : Nat) (s : EgcdState) (hu : s.u ≠ 0) (hv : 1 ≤ s.v) :
    egcdPhi (egcdStep a m s) < egcdPhi s := by
  unfold egcdStep
  by_cases h1 : s.u % 2 = 0
  · rw [if_pos h1]
    have hb := bitlen_rec s.u hu
    unfold egcdPhi
    dsimp only
    omega
  · rw [if_neg h1]
    by_cases h2 : s.v % 2 = 0
    · rw [if_pos h2]
      have hvz : s.v ≠ 0 := by omega
      have hb := bitlen_rec s.v hvz
      unfold egcdPhi
      dsimp only
      omega
    · rw [if_neg h2]
      by_cases h3 : s.v ≤ s.u
      · rw [if_pos h3]
        have hb := bitlen_mono s.u (s.u - s.v) (Nat.sub_le _ _)
        unfold egcdPhi
        dsimp only
        omega
      · rw [if_neg h3]
        have hb := bitlen_mono s.v (s.v - s.u) (Nat.sub_le _ _)
        unfold egcdPhi
        dsimp only
        omega

/-- The second operand of the binary GCD loop stays positive. -/
theorem egcdStep_v_pos (a m : Nat) (s : EgcdState) (hu : s.u ≠ 0) (hv : 1 ≤ s.v) :
    1 ≤ (egcdStep a m s).v := by
  unfold egcdStep
  by_cases h1 : s.u % 2 = 0
  · rw [if_pos h1]; exact hv
  · rw [if_neg h1]
    by_cases h2 : s.v % 2 = 0
    · rw [if_pos h2]; dsimp only; omega
    · rw [if_neg h2]
      by_cases h3 : s.v ≤ s.u
      · rw [if_pos h3]; exact hv
      · rw [if_neg h3]; dsimp only; omega

/-- With fuel exceeding the measure, the binary GCD loop never reports the
iteration cap. -/
theorem egcdLoop_no_limit (a m : Nat) :
    ∀ fuel s, 1 ≤ s.v → egcdPhi s < fuel → egcdLoop a m fuel s ≠ .limit := by
  intro fuel
  induction fuel with
  | zero => intro s _ h; omega
  | succ fuel ih =>
      intro s hv hphi
      rw [egcdLoop]
      by_cases hu : s.u = 0
      · rw [if_pos hu]; intro h; exact EgcdLoopOut.noConfusion h
      · rw [if_neg hu]
        exact ih (egcdStep a m s) (egcdStep_v_pos a m s hu hv)
          (by have := egcdStep_phi_lt a m s hu hv; omega)

/-- Halving step of the cofactor pair preserves the Bezout equation: if
`x*a + y*m` equals an even value `u` and at least one of `a`, `m` is odd,
the corrected halved pair represents `u / 2`. -/
theorem halfCof_spec (a m : Nat) (x y : Int) (u : Nat)
    (hpar : a % 2 = 1 ∨ m % 2 = 1)
    (heq : x * a + y * m = (u : Int)) (hu : u % 2 = 0) :
    (halfCof a m x y).1 * a + (halfCof a m x y).2 * m = ((u / 2 : Nat) : Int) := by
  have hu2 : (u : Int) = 2 * ((u / 2 : Nat) : Int) := by push_cast; omega
  unfold halfCof
  by_cases hxy : x % 2 = 0 ∧ y % 2 = 0
  · rw [if_pos hxy]
    obtain ⟨p, hp⟩ : (2 : Int) ∣ x := by omega
    obtain ⟨q, hq⟩ : (2 : Int) ∣ y := by omega
    rw [hp, hq, Int.mul_ediv_cancel_left p two_ne_zero,
      Int.mul_ediv_cancel_left q two_ne_zero]
    have h2 : 2 * (p * (a : Int) + q * (m : Int)) = 2 * ((u / 2 : Nat) : Int) := by
      calc 2 * (p * (a : Int) + q * (m : Int)) = 2 * p * a + 2 * q * m := by ring
        _ = x * a + y * m := by rw [← hp, ← hq]
        _ = (u : Int) := heq
        _ = 2 * ((u / 2 : Nat) : Int) := hu2
    linarith
  · rw [if_neg hxy]
    have hU : Even (x * (a : Int) + y * (m : Int)) := by
      rw [heq, Int.even_coe_nat]
      exact Nat.even_iff.mpr hu
    rw [Int.even_add, Int.even_mul, Int.even_mul, Int.even_coe_nat, Int.even_coe_nat] at hU
    have hxy' : ¬(Even x ∧ Even y) := by
      rw [Int.even_iff, Int.even_iff]; exact hxy
    have hpar' : ¬Even a ∨ ¬Even m := by
      rcases hpar with h | h
      · exact Or.inl (by rw [Nat.even_iff]; omega)
      · exact Or.inr (by rw [Nat.even_iff]; omega)
    have hdx : Even (x + (m : Int)) := by
      rw [Int.even_add, Int.even_coe_nat]; tauto
    have hdy : Even (y - (a : Int)) := by
      rw [Int.even_sub, Int.even_coe_nat]; tauto
    obtain ⟨p, hp⟩ := hdx
    obtain ⟨q, hq⟩ := hdy
    have hp2 : x + (m : Int) = 2 * p := by omega
    have hq2 : y - (a : Int) = 2 * q := by omega
    rw [hp2, hq2, Int.mul_ediv_cancel_left p two_ne_zero,
      Int.mul_ediv_cancel_left q two_ne_zero]
    have h2 : 2 * (p * (a : Int) + q * (m : Int)) = 2 * ((u / 2 : Nat) : Int) := by
      calc 2 * (p * (a : Int) + q * (m : Int))
          = (x + m) * a + (y - a) * m := by rw [hp2, hq2]; ring
        _ = x * a + y * m := by ring
        _ = (u : Int) := heq
        _ = 2 * ((u / 2 : Nat) : Int) := hu2
    linarith

/-- Halving an even first operand against an odd second operand preserves
the gcd. -/
theorem gcd_half_left (u v : Nat) (hu : u % 2 = 0) (hv : v % 2 = 1) :
    Nat.gcd (u / 2) v = Nat.gcd u v := by
  have hcop : Nat.Coprime 2 v :=
    (Nat.prime_two.coprime_iff_not_dvd).mpr (by omega)
  have h2 : u = 2 * (u / 2) := by omega
  conv_rhs => rw [h2]
  exact (Nat.Coprime.gcd_mul_left_cancel (u / 2) hcop).symm

/-- Halving an even second operand against an odd first operand preserves
the gcd. -/
theorem gcd_half_right (u v : Nat) (hu : u % 2 = 1) (hv : v % 2 = 0) :
    Nat.gcd u (v / 2) = Nat.gcd u v := by
  rw [Nat.gcd_comm u (v / 2), Nat.gcd_comm u v]
  exact gcd_half_left v u hv hu

/-- One binary GCD iteration preserves the loop invariant. -/
theorem egcdStep_inv (a m : Nat) (hpar : a % 2 = 1 ∨ m % 2 = 1) (s : EgcdState)
    (hu : s.u ≠ 0) (hinv : EgcdInv a m s) : EgcdInv a m (egcdStep a m s) := by
  obtain ⟨hv, hox, hg, hb1, hb2⟩ := hinv
  unfold egcdStep
  by_cases h1 : s.u % 2 = 0
  · rw [if_pos h1]
    have hvodd : s.v % 2 = 1 := by omega
    unfold EgcdInv
    refine ⟨hv, Or.inr hvodd, ?_, ?_, hb2⟩
    · show Nat.gcd (s.u / 2) s.v = Nat.gcd a m
      rw [gcd_half_left s.u s.v h1 hvodd]; exact hg
    · exact halfCof_spec a m s.x1 s.y1 s.u hpar hb1 h1
  · rw [if_neg h1]
    have huodd : s.u % 2 = 1 := by omega
    by_cases h2 : s.v % 2 = 0
    · rw [if_pos h2]
      unfold EgcdInv
      refine ⟨by dsimp only; omega, Or.inl huodd, ?_, hb1, ?_⟩
      · show Nat.gcd s.u (s.v / 2) = Nat.gcd a m
        rw [gcd_half_right s.u s.v huodd h2]; exact hg
      · exact halfCof_spec a m s.x2 s.y2 s.v hpar hb2 h2
    · rw [if_neg h2]
      have hvodd : s.v % 2 = 1 := by omega
      by_cases h3 : s.v ≤ s.u
      · rw [if_pos h3]
        unfold EgcdInv
        refine ⟨hv, Or.inr hvodd, ?_, ?_, hb2⟩
        · show Nat.gcd (s.u - s.v) s.v = Nat.gcd a m
          rw [Nat.gcd_sub_self_left h3]; exact hg
        · show (s.x1 - s.x2) * (a : Int) + (s.y1 - s.y2) * m = ((s.u - s.v : Nat) : Int)
          have hc : ((s.u - s.v : Nat) : Int) = (s.u : Int) - s.v := by omega
          rw [hc]; linarith
      · rw [if_neg h3]
        unfold EgcdInv
        refine ⟨by dsimp only; omega, Or.inl huodd, ?_, hb1, ?_⟩
        · show Nat.gcd s.u (s.v - s.u) = Nat.gcd a m
          rw [Nat.gcd_sub_self_right (by omega : s.u ≤ s.v)]; exact hg
        · show (s.x2 - s.x1) * (a : Int) + (s.y2 - s.y1) * m = ((s.v - s.u : Nat) : Int)
          have hc : ((s.v - s.u : Nat) : Int) = (s.v : Int) - s.u := by omega
          rw [hc]; linarith

/-- When the binary GCD loop finishes, it delivers the gcd of the inputs
together with a valid Bezout cofactor pair for it. -/
theorem egcdLoop_done_spec (a m : Nat) (hpar : a % 2 = 1 ∨ m % 2 = 1) :
    ∀ fuel s, EgcdInv a m s → ∀ g x y, egcdLoop a m fuel s = .done g x y →
      g = Nat.gcd a m ∧ x * (a : Int) + y * m = (g : Int) := by
  intro fuel
  induction fuel with
  | zero =>
      intro s _ g x y h
      exact absurd h (by rw [egcdLoop]; intro hc; exact EgcdLoopOut.noConfusion hc)
  | succ fuel ih =>
      intro s hinv g x y h
      rw [egcdLoop] at h
      by_cases hu : s.u = 0
      · rw [if_pos hu] at h
        obtain ⟨hv, hox, hg, hb1, hb2⟩ := hinv
        injection h with h1 h2 h3
        subst h1; subst h2; subst h3
        constructor
        · rw [← hg, hu, Nat.gcd_zero_left]
        · exact hb2
      · rw [if_neg hu] at h
        exact ih (egcdStep a m s) (egcdStep_inv a m hpar s hu hinv) g x y h

/-- In the nondegenerate case the binary GCD loop finishes (within the
bit-length-proportional cap) with the gcd and cofactors. -/
theorem egcd_main (a m : Nat) (ha : a ≠ 0) (hm : m ≠ 0)
    (hpar : ¬(a % 2 = 0 ∧ m % 2 = 0)) :
    ∃ g x y, egcdLoop a m (gcdIterCap a m) (egcdInit a m) = .done g x y ∧
      g = Nat.gcd a m ∧ x * (a : Int) + y * m = (g : Int) := by
  have hpar' : a % 2 = 1 ∨ m % 2 = 1 := by omega
  have hinv : EgcdInv a m (egcdInit a m) := by
    refine ⟨by unfold egcdInit; dsimp only; omega, by unfold egcdInit; dsimp only; omega,
      rfl, ?_, ?_⟩
    · show (1 : Int) * a + 0 * m = (a : Int); ring
    · show (0 : Int) * a + 1 * m = (m : Int); ring
  have hphi : egcdPhi (egcdInit a m) < gcdIterCap a m := by
    unfold egcdPhi egcdInit gcdIterCap
    dsimp only
    omega
  have hnl := egcdLoop_no_limit a m (gcdIterCap a m) (egcdInit a m)
    (by unfold egcdInit; dsimp only; omega) hphi
  cases hout : egcdLoop a m (gcdIterCap a m) (egcdInit a m) with
  | limit => exact absurd hout hnl
  | done g x y =>
      obtain ⟨hg, hbz⟩ := egcdLoop_done_spec a m hpar' (gcdIterCap a m) (egcdInit a m)
        hinv g x y hout
      exact ⟨g, x, y, rfl, hg, hbz⟩

/-- Full functional specification of the modular-inverse routine: it never
reports the iteration cap, on coprime inputs it succeeds with the inverse of
`a` modulo `m` (reduced into the modulus range), and on non-coprime inputs it
returns the distinct not-invertible result. -/
theorem extended_gcd_full_spec (a m : Nat) :
    extended_gcd_full a m ≠ .iterationLimitExceeded ∧
    (Nat.gcd a m = 1 →
      ∃ x, extended_gcd_full a m = .ok x ∧ (m ≠ 0 → x < m) ∧ (a * x) % m = 1 % m) ∧
    (Nat.gcd a m ≠ 1 → extended_gcd_full a m = .notInvertible) := by
  by_cases hm : m = 0
  · subst hm
    rw [show Nat.gcd a 0 = a from Nat.gcd_zero_right a]
    by_cases ha : a = 1
    · subst ha
      refine ⟨by unfold extended_gcd_full; simp, fun _ => ⟨1, ?_, ?_, ?_⟩, fun h => absurd rfl h⟩
      · unfold extended_gcd_full; simp
      · intro h; exact absurd rfl h
      · simp
    · refine ⟨?_, fun h => absurd h ha, fun _ => ?_⟩
      · unfold extended_gcd_full; simp [ha]
      · unfold extended_gcd_full; simp [ha]
  · by_cases ha : a = 0
    · subst ha
      rw [show Nat.gcd 0 m = m from Nat.gcd_zero_left m]
      by_cases hm1 : m = 1
      · subst hm1
        refine ⟨by unfold extended_gcd_full; simp, fun _ => ⟨0, ?_, fun _ => by omega, ?_⟩,
          fun h => absurd rfl h⟩
        · unfold extended_gcd_full; simp
        · simp
      · refine ⟨?_, fun h => absurd h hm1, fun _ => ?_⟩
        · unfold extended_gcd_full; simp [hm, hm1]
        · unfold extended_gcd_full; simp [hm, hm1]
    · by_cases hpar : a % 2 = 0 ∧ m % 2 = 0
      · have hg2 : 2 ∣ Nat.gcd a m := Nat.dvd_gcd (by omega) (by omega)
        have hgne : Nat.gcd a m ≠ 1 := by omega
        refine ⟨?_, fun h => absurd h hgne, fun _ => ?_⟩
        · unfold extended_gcd_full; simp [hm, ha, hpar]
        · unfold extended_gcd_full; simp [hm, ha, hpar]
      · obtain ⟨g, x, y, hdone, hg, hbz⟩ := egcd_main a m ha hm hpar
        have hres : extended_gcd_full a m =
            (if g = 1 then .ok ((x % (m : Int)).toNat) else .notInvertible) := by
          unfold extended_gcd_full
          rw [if_neg hm, if_neg ha, if_neg hpar, hdone]
        by_cases hg1 : Nat.gcd a m = 1
        · have hgone : g = 1 := by omega
          subst hgone
          rw [if_pos rfl] at hres
          have hmI : (0 : Int) < (m : Int) := by exact_mod_cast Nat.pos_of_ne_zero hm
          have hnn : 0 ≤ x % (m : Int) := Int.emod_nonneg x (by exact_mod_cast hm)
          have hlt : x % (m : Int) < (m : Int) := Int.emod_lt_of_pos x hmI
          refine ⟨?_, fun h1 => ⟨(x % (m : Int)).toNat, hres, fun _ => ?_, ?_⟩,
            fun h => absurd hg1 h⟩
          · rw [hres]; intro h; exact EgcdResult.noConfusion h
          · have : ((x % (m : Int)).toNat : Int) < (m : Int) := by
              rw [Int.toNat_of_nonneg hnn]; exact hlt
            exact_mod_cast this
          · have hxI : (((x % (m : Int)).toNat : Nat) : Int) = x % m :=
              Int.toNat_of_nonneg hnn
            have hInt : ((a : Int) * ((x % (m : Int)).toNat : Nat)) % m = (1 : Int) % m := by
              rw [hxI, Int.mul_emod, Int.emod_emod_of_dvd x dvd_rfl, ← Int.mul_emod]
              have hax : (a : Int) * x = 1 + (-y) * m := by
                have : (x * a + y * m : Int) = 1 := by rw [hbz]; norm_num
                linarith
              rw [hax, Int.add_mul_emod_self]
            exact_mod_cast hInt
        · have hgne : g ≠ 1 := by omega
          rw [if_neg hgne] at hres
          refine ⟨?_, fun h => absurd h hg1, fun _ => hres⟩
          rw [hres]; intro h; exact EgcdResult.noConfusion h

/-- C2: for every pair of inputs the extended GCD routine runs its loop with
an explicit iteration cap that is a function of the operands' bit lengths,
exhausting the cap yields the `IterationLimitExceeded` error rather than
divergence, and on no input does the routine actually reach the cap (it is
total and bounded by construction). -/
theorem claim_C2_gcd_iteration_capped (a m : Nat) :
    gcdIterCap a m = 2 * (bitlen a + bitlen m) + 4 ∧
    (∀ s, egcdLoop a m 0 s = .limit) ∧
    extended_gcd_full a m ≠ .iterationLimitExceeded :=
  ⟨rfl, fun _ => rfl, (extended_gcd_full_spec a m).1⟩

/-- Witness for C2 at the concrete pair `(65537, 143)`. -/
theorem claim_C2_gcd_iteration_capped_witness :
    gcdIterCap 65537 143 = 2 * (bitlen 65537 + bitlen 143) + 4 ∧
    egcdLoop 65537 143 0 (egcdInit 65537 143) = .limit ∧
    extended_gcd_full 65537 143 ≠ .iterationLimitExceeded := by
  obtain ⟨h1, h2, h3⟩ := claim_C2_gcd_iteration_capped 65537 143
  exact ⟨h1, h2 (egcdInit 65537 143), h3⟩

/-- C3 counterexample: at the coprime pair `a = 1, m = 1` the routine
succeeds (with inverse 0), but `(a * x) mod m = 0 ≠ 1`, so the literal
claim `(a * x) mod m == 1` fails; no result value could satisfy it since
every residue modulo 1 is 0. -/
theorem claim_C3_counterexample :
    Nat.gcd 1 1 = 1 ∧ extended_gcd_full 1 1 = .ok 0 ∧ (1 * 0) % 1 ≠ 1 := by
  refine ⟨rfl, by decide, by decide⟩

/-- C3 (amended): for every coprime pair the routine succeeds and the result
satisfies the congruence `a * x ≡ 1 (mod m)`, stated as
`(a * x) % m = 1 % m` (which is the literal `= 1` whenever `m ≥ 2`); for
every non-coprime pair it returns the distinct `NotInvertible` result. -/
theorem claim_C3_modinv_correct (a m : Nat) :
    (Nat.gcd a m = 1 →
      ∃ x, extended_gcd_full a m = .ok x ∧ (a * x) % m = 1 % m) ∧
    (Nat.gcd a m ≠ 1 → extended_gcd_full a m = .notInvertible) := by
  obtain ⟨-, h2, h3⟩ := extended_gcd_full_spec a m
  refine ⟨fun hg => ?_, h3⟩
  obtain ⟨x, hx, -, hmod⟩ := h2 hg
  exact ⟨x, hx, hmod⟩

/-- Witness for C3 at the coprime pair `(65537, 143)` (inverse 10) and the
non-coprime pair `(22, 143)`. -/
theorem claim_C3_modinv_correct_witness :
    (extended_gcd_full 65537 143 = .ok 10 ∧ (65537 * 10) % 143 = 1 % 143) ∧
    extended_gcd_full 22 143 = .notInvertible := by
  constructor
  · obtain ⟨x, hx, hmod⟩ := (claim_C3_modinv_correct 65537 143).1 (by decide)
    have hcomp : extended_gcd_full 65537 143 = .ok 10 := by decide
    rw [hcomp] at hx
    injection hx with hx10
    rw [← hx10] at hmod
    exact ⟨hcomp, hmod⟩
  · exact (claim_C3_modinv_correct 22 143).2 (by decide)

/-- C4: Montgomery context initialization on an even or zero modulus fails
with `InvalidModulus` and performs no mutation of the caller's context at
all; in particular `is_active` is left untouched. -/
theorem claim_C4_even_modulus_rejected (ctx : montgomery_ctx_t) (n : Nat)
    (h : n = 0 ∨ n % 2 = 0) :
    montgomery_ctx_init ctx n = (.error .invalidModulus, ctx) ∧
    ((montgomery_ctx_init ctx n).2).is_active = ctx.is_active := by
  have h1 : montgomery_ctx_init ctx n = (.error .invalidModulus, ctx) := by
    by_cases h0 : n = 0
    · unfold montgomery_ctx_init; rw [if_pos h0]
    · unfold montgomery_ctx_init; rw [if_neg h0, if_pos (by omega : n % 2 = 0)]
  exact ⟨h1, by rw [h1]⟩

/-- Witness for C4 at the even modulus 10 and a zeroed context. -/
theorem claim_C4_even_modulus_rejected_witness :
    montgomery_ctx_init montgomery_ctx_zero 10 = (.error .invalidModulus, montgomery_ctx_zero) ∧
    ((montgomery_ctx_init montgomery_ctx_zero 10).2).is_active = montgomery_ctx_zero.is_active :=
  claim_C4_even_modulus_rejected montgomery_ctx_zero 10 (Or.inr (by decide))

/-- C10: in the test-modulus generator's per-word expression
`0x12345678 + (uint32_t)(i * 0x1234)`, no 32-bit wraparound occurs for any
loop index below 120; the word equals the exact value
`0x12345678 + i * 0x1234`, whose maximum (at `i = 119`) is below 2^32. -/
theorem claim_C10_no_word_overflow (i : Nat) (h : i < 120) :
    genPatternWord i = 305419896 + i * 4660 ∧ 305419896 + i * 4660 < W32 := by
  have hb : i * 4660 ≤ 119 * 4660 := Nat.mul_le_mul_right 4660 (by omega)
  unfold genPatternWord W32
  constructor <;> omega

/-- Witness for C10 at the largest loop index `i = 119`. -/
theorem claim_C10_no_word_overflow_witness :
    genPatternWord 119 = 305419896 + 119 * 4660 ∧ 305419896 + 119 * 4660 < W32 :=
  claim_C10_no_word_overflow 119 (by decide)

/-- C9: whenever the word capacity is at least 121, the test-modulus
generator deterministically produces one specific big integer: the 120
pattern words (word 0 forced odd by the final `|= 1`, so `0x12345679`),
the top word `0x80000000` at index 120, `used = 121`, an odd value, and a
bit length of exactly `121 * 32 = 3872`. -/
theorem claim_C9_generator_deterministic (cap : Nat) (hcap : 121 ≤ cap) :
    generate_4096_bit_test_modulus cap = ⟨genExpectedWords⟩ ∧
    (generate_4096_bit_test_modulus cap).used = 121 ∧
    bigint_is_odd (generate_4096_bit_test_modulus cap) = true ∧
    bigint_bit_length (generate_4096_bit_test_modulus cap) = 3872 ∧
    (generate_4096_bit_test_modulus cap).words.getD 0 0 = 305419897 ∧
    (∀ i, 1 ≤ i → i < 120 →
      (generate_4096_bit_test_modulus cap).words.getD i 0 = 305419896 + i * 4660) ∧
    (generate_4096_bit_test_modulus cap).words.getD 120 0 = 2147483648 := by
  have hmain : generate_4096_bit_test_modulus cap = ⟨genExpectedWords⟩ := by
    unfold generate_4096_bit_test_modulus
    dsimp only
    rw [show min 120 cap = 120 by omega]
    rw [if_pos (by rw [List.length_map, List.length_range]; omega)]
    decide
  rw [hmain]
  refine ⟨rfl, by decide, by decide, by decide, by decide, ?_, by decide⟩
  decide

/-- Witness for C9 at the concrete capacity 256. -/
theorem claim_C9_generator_deterministic_witness :
    generate_4096_bit_test_modulus 256 = ⟨genExpectedWords⟩ ∧
    bigint_is_odd (generate_4096_bit_test_modulus 256) = true ∧
    bigint_bit_length (generate_4096_bit_test_modulus 256) = 3872 := by
  obtain ⟨h1, _, h3, h4, _⟩ := claim_C9_generator_deterministic 256 (by decide)
  exact ⟨h1, h3, h4⟩

/-- A normalized digit list (nonzero leading digit) has value at least
`b ^ (length - 1)`. -/
theorem ofDigits_ge_pow (b : Nat) (hb : 1 ≤ b) :
    ∀ l : List Nat, ∀ h : l ≠ [], l.getLast h ≠ 0 → b ^ (l.length - 1) ≤ Nat.ofDigits b l := by
  intro l
  induction l with
  | nil => intro h; exact absurd rfl h
  | cons d rest ih =>
      intro h hlast
      by_cases hrest : rest = []
      · subst hrest
        simp only [List.getLast_singleton] at hlast
        simp [Nat.ofDigits_singleton]
        omega
      · have hne : rest ≠ [] := hrest
        have hlast' : rest.getLast hne ≠ 0 := by
          rw [← List.getLast_cons hne]; exact hlast
        have hlen : rest.length ≥ 1 := List.length_pos.mpr hne
        have := ih hne hlast'
        rw [Nat.ofDigits_cons]
        calc b ^ ((d :: rest).length - 1) = b ^ rest.length := by simp
          _ = b * b ^ (rest.length - 1) := by
              rw [← pow_succ']; congr 1; omega
          _ ≤ b * Nat.ofDigits b rest := Nat.mul_le_mul_left b this
          _ ≤ d + b * Nat.ofDigits b rest := Nat.le_add_left _ _

/-- Trichotomy of the big-endian word comparison against the values of the
compared lists. -/
theorem cmpWordsBE_spec : ∀ xs ys : List Nat, xs.length = ys.length →
    (∀ w ∈ xs, w < W32) → (∀ w ∈ ys, w < W32) →
    (cmpWordsBE xs ys = -1 ∧ Nat.ofDigits W32 xs.reverse < Nat.ofDigits W32 ys.reverse) ∨
    (cmpWordsBE xs ys = 0 ∧ Nat.ofDigits W32 xs.reverse = Nat.ofDigits W32 ys.reverse) ∨
    (cmpWordsBE xs ys = 1 ∧ Nat.ofDigits W32 ys.reverse < Nat.ofDigits W32 xs.reverse) := by
  intro xs
  induction xs with
  | nil =>
      intro ys hlen _ _
      have : ys = [] := List.length_eq_zero.mp (by simp at hlen; omega)
      subst this
      exact Or.inr (Or.inl ⟨rfl, rfl⟩)
  | cons x xs ih =>
      intro ys hlen hxb hyb
      cases ys with
      | nil => simp at hlen
      | cons y ys =>
          have hlen' : xs.length = ys.length := by simp at hlen; omega
          have hxb' : ∀ w ∈ xs, w < W32 := fun w hw => hxb w (List.mem_cons_of_mem x hw)
          have hyb' : ∀ w ∈ ys, w < W32 := fun w hw => hyb w (List.mem_cons_of_mem y hw)
          have hvx : Nat.ofDigits W32 ((x :: xs).reverse) =
              Nat.ofDigits W32 xs.reverse + W32 ^ xs.length * x := by
            rw [List.reverse_cons, Nat.ofDigits_append, Nat.ofDigits_singleton,
              List.length_reverse]
          have hvy : Nat.ofDigits W32 ((y :: ys).reverse) =
              Nat.ofDigits W32 ys.reverse + W32 ^ ys.length * y := by
            rw [List.reverse_cons, Nat.ofDigits_append, Nat.ofDigits_singleton,
              List.length_reverse]
          have hAx : Nat.ofDigits W32 xs.reverse < W32 ^ xs.length := by
            have := Nat.ofDigits_lt_base_pow_length (b := W32) (l := xs.reverse)
              (by norm_num [W32]) (fun w hw => hxb' w (List.mem_reverse.mp hw))
            rwa [List.length_reverse] at this
          have hAy : Nat.ofDigits W32 ys.reverse < W32 ^ ys.length := by
            have := Nat.ofDigits_lt_base_pow_length (b := W32) (l := ys.reverse)
              (by norm_num [W32]) (fun w hw => hyb' w (List.mem_reverse.mp hw))
            rwa [List.length_reverse] at this
          rw [hvx, hvy, hlen']
          by_cases hxy : x < y
          · refine Or.inl ⟨by rw [cmpWordsBE, if_pos hxy], ?_⟩
            calc Nat.ofDigits W32 xs.reverse + W32 ^ ys.length * x
                < W32 ^ ys.length + W32 ^ ys.length * x := by
                  rw [hlen'] at hAx; omega
              _ = W32 ^ ys.length * (x + 1) := by ring
              _ ≤ W32 ^ ys.length * y := Nat.mul_le_mul_left _ (by omega)
              _ ≤ Nat.ofDigits W32 ys.reverse + W32 ^ ys.length * y := Nat.le_add_left _ _
          · by_cases hyx : y < x
            · refine Or.inr (Or.inr ⟨by rw [cmpWordsBE, if_neg hxy, if_pos hyx], ?_⟩)
              calc Nat.ofDigits W32 ys.reverse + W32 ^ ys.length * y
                  < W32 ^ ys.length + W32 ^ ys.length * y := by omega
                _ = W32 ^ ys.length * (y + 1) := by ring
                _ ≤ W32 ^ ys.length * x := Nat.mul_le_mul_left _ (by omega)
                _ ≤ Nat.ofDigits W32 xs.reverse + W32 ^ ys.length * x := Nat.le_add_left _ _
            · have hxe : x = y := by omega
              subst hxe
              have hcmp : cmpWordsBE (x :: xs) (x :: ys) = cmpWordsBE xs ys := by
                rw [cmpWordsBE, if_neg hxy, if_neg hyx]
              rcases ih ys hlen' hxb' hyb' with ⟨h1, h2⟩ | ⟨h1, h2⟩ | ⟨h1, h2⟩
              · exact Or.inl ⟨by rw [hcmp, h1], by omega⟩
              · exact Or.inr (Or.inl ⟨by rw [hcmp, h1], by omega⟩)
              · exact Or.inr (Or.inr ⟨by rw [hcmp, h1], by omega⟩)

/-- The comparison routine decides the numeric order of two well-formed big
integers: negative exactly on strictly-less, zero exactly on equal values. -/
theorem bigint_compare_spec (a b : bigint_t) (ha : bigint_wf a) (hb : bigint_wf b) :
    (bigint_compare a b < 0 ↔ bigint_to_nat a < bigint_to_nat b) ∧
    (bigint_compare a b = 0 ↔ bigint_to_nat a = bigint_to_nat b) := by
  obtain ⟨hab, -, han⟩ := ha
  obtain ⟨hbb, -, hbn⟩ := hb
  unfold bigint_compare bigint_to_nat
  by_cases h1 : a.words.length < b.words.length
  · rw [if_pos h1]
    have hbne : b.words ≠ [] := by
      intro hc; rw [hc] at h1; simp at h1
    have hlow : W32 ^ (b.words.length - 1) ≤ Nat.ofDigits W32 b.words :=
      ofDigits_ge_pow W32 (by norm_num [W32]) b.words hbne (hbn hbne)
    have hup : Nat.ofDigits W32 a.words < W32 ^ a.words.length :=
      Nat.ofDigits_lt_base_pow_length (by norm_num [W32]) hab
    have hpow : W32 ^ a.words.length ≤ W32 ^ (b.words.length - 1) :=
      Nat.pow_le_pow_right (by norm_num [W32]) (by omega)
    constructor
    · constructor
      · intro _; omega
      · intro _; norm_num
    · constructor
      · intro hc; norm_num at hc
      · intro _; omega
  · rw [if_neg h1]
    by_cases h2 : b.words.length < a.words.length
    · rw [if_pos h2]
      have hane : a.words ≠ [] := by
        intro hc; rw [hc] at h2; simp at h2
      have hlow : W32 ^ (a.words.length - 1) ≤ Nat.ofDigits W32 a.words :=
        ofDigits_ge_pow W32 (by norm_num [W32]) a.words hane (han hane)
      have hup : Nat.ofDigits W32 b.words < W32 ^ b.words.length :=
        Nat.ofDigits_lt_base_pow_length (by norm_num [W32]) hbb
      have hpow : W32 ^ b.words.length ≤ W32 ^ (a.words.length - 1) :=
        Nat.pow_le_pow_right (by norm_num [W32]) (by omega)
      constructor
      · constructor
        · intro hc; norm_num at hc
        · intro _; omega
      · constructor
        · intro hc; norm_num at hc
        · intro _; omega
    · rw [if_neg h2]
      have hlen : a.words.length = b.words.length := by omega
      have hval : ∀ l : List Nat, Nat.ofDigits W32 (l.reverse.reverse) = Nat.ofDigits W32 l :=
        fun l => by rw [List.reverse_reverse]
      have := cmpWordsBE_spec a.words.reverse b.words.reverse
        (by simp [hlen])
        (fun w hw => hab w (List.mem_reverse.mp hw))
        (fun w hw => hbb w (List.mem_reverse.mp hw))
      rw [hval a.words, hval b.words] at this
      rcases this with ⟨h1, h2⟩ | ⟨h1, h2⟩ | ⟨h1, h2⟩
      · rw [h1]
        constructor
        · exact ⟨fun _ => h2, fun _ => by norm_num⟩
        · exact ⟨fun hc => by norm_num at hc, fun hc => by omega⟩
      · rw [h1]
        constructor
        · exact ⟨fun hc => by norm_num at hc, fun hc => by omega⟩
        · exact ⟨fun _ => h2, fun _ => rfl⟩
      · rw [h1]
        constructor
        · exact ⟨fun hc => by norm_num at hc, fun hc => by omega⟩
        · exact ⟨fun hc => by norm_num at hc, fun hc => by omega⟩

/-- Every word produced by the carry-propagating addition fits in 32 bits. -/
theorem addWords_lt : ∀ xs ys c, ∀ w ∈ addWords xs ys c, w < W32 := by
  intro xs
  induction xs with
  | nil =>
      intro ys
      induction ys with
      | nil =>
          intro c w hw
          unfold addWords at hw
          by_cases hc : c = 0
          · rw [if_pos hc] at hw; simp at hw
          · rw [if_neg hc] at hw
            simp at hw
            rw [hw]
            exact Nat.mod_lt _ (by norm_num [W32])
      | cons y ys ih =>
          intro c w hw
          unfold addWords at hw
          rcases List.mem_cons.mp hw with h | h
          · rw [h]; exact Nat.mod_lt _ (by norm_num [W32])
          · exact ih _ w h
  | cons x xs ih =>
      intro ys c w hw
      cases ys with
      | nil =>
          unfold addWords at hw
          rcases List.mem_cons.mp hw with h | h
          · rw [h]; exact Nat.mod_lt _ (by norm_num [W32])
          · exact ih [] _ w h
      | cons y ys =>
          unfold addWords at hw
          rcases List.mem_cons.mp hw with h | h
          · rw [h]; exact Nat.mod_lt _ (by norm_num [W32])
          · exact ih ys _ w h

/-- The carry-propagating addition computes the sum of the values plus the
incoming carry. -/
theorem addWords_val : ∀ xs ys c, (∀ w ∈ xs, w < W32) → (∀ w ∈ ys, w < W32) → c < W32 →
    Nat.ofDigits W32 (addWords xs ys c) = Nat.ofDigits W32 xs + Nat.ofDigits W32 ys + c := by
  have hW : W32 = 4294967296 := rfl
  intro xs
  induction xs with
  | nil =>
      intro ys
      induction ys with
      | nil =>
          intro c _ _ hc
          unfold addWords
          by_cases h0 : c = 0
          · rw [if_pos h0]; simp [Nat.ofDigits_nil, h0]
          · rw [if_neg h0]
            rw [Nat.ofDigits_singleton]
            simp only [Nat.ofDigits_nil]
            simp only [hW] at hc ⊢
            omega
      | cons y ys ih =>
          intro c _ hyb hc
          unfold addWords
          rw [Nat.ofDigits_cons, Nat.ofDigits_cons]
          have hy : y < W32 := hyb y (List.mem_cons_self y ys)
          have hcar : (y + c) / W32 < W32 := by
            simp only [hW] at hy hc ⊢; omega
          rw [ih ((y + c) / W32) (by intro w hw; exact absurd hw (by simp))
            (fun w hw => hyb w (List.mem_cons_of_mem y hw)) hcar]
          simp only [Nat.ofDigits_nil]
          simp only [hW] at hy hc ⊢
          omega
  | cons x xs ih =>
      intro ys c hxb hc'
      cases ys with
      | nil =>
          intro hc
          unfold addWords
          rw [Nat.ofDigits_cons, Nat.ofDigits_cons]
          have hx : x < W32 := hxb x (List.mem_cons_self x xs)
          have hcar : (x + c) / W32 < W32 := by
            simp only [hW] at hx hc ⊢; omega
          rw [ih [] ((x + c) / W32) (fun w hw => hxb w (List.mem_cons_of_mem x hw))
            (by intro w hw; exact absurd hw (by simp)) hcar]
          simp only [Nat.ofDigits_nil]
          simp only [hW] at hx hc ⊢
          omega
      | cons y ys =>
          intro hc
          unfold addWords
          rw [Nat.ofDigits_cons, Nat.ofDigits_cons, Nat.ofDigits_cons]
          have hx : x < W32 := hxb x (List.mem_cons_self x xs)
          have hy : y < W32 := hc' y (List.mem_cons_self y ys)
          have hcar : (x + y + c) / W32 < W32 := by
            simp only [hW] at hx hy hc ⊢; omega
          rw [ih ys ((x + y + c) / W32) (fun w hw => hxb w (List.mem_cons_of_mem x hw))
            (fun w hw => hc' w (List.mem_cons_of_mem y hw)) hcar]
          simp only [hW] at hx hy hc ⊢
          omega

/-- Every word produced by the borrow-propagating subtraction fits in 32
bits. -/
theorem subWords_lt : ∀ xs ys br, ∀ w ∈ subWords xs ys br, w < W32 := by
  intro xs
  induction xs with
  | nil => intro ys br w hw; exact absurd hw (by simp [subWords])
  | cons x xs ih =>
      intro ys br w hw
      cases ys with
      | nil =>
          unfold subWords at hw
          rcases List.mem_cons.mp hw with h | h
          · rw [h]; exact Nat.mod_lt _ (by norm_num [W32])
          · exact ih [] _ w h
      | cons y ys =>
          unfold subWords at hw
          rcases List.mem_cons.mp hw with h | h
          · rw [h]; exact Nat.mod_lt _ (by norm_num [W32])
          · exact ih ys _ w h

/-- The borrow-propagating subtraction computes the difference of the values
minus the incoming borrow, provided the minuend dominates. -/
theorem subWords_val : ∀ xs ys br, (∀ w ∈ xs, w < W32) → (∀ w ∈ ys, w < W32) → br ≤ 1 →
    ys.length ≤ xs.length → Nat.ofDigits W32 ys + br ≤ Nat.ofDigits W32 xs →
    Nat.ofDigits W32 (subWords xs ys br) =
      Nat.ofDigits W32 xs - Nat.ofDigits W32 ys - br := by
  have hW : W32 = 4294967296 := rfl
  intro xs
  induction xs with
  | nil =>
      intro ys br _ _ hbr hlen hval
      have hys : ys = [] := by
        cases ys with
        | nil => rfl
        | cons a as => simp at hlen
      subst hys
      unfold subWords
      simp only [Nat.ofDigits_nil] at hval ⊢
      omega
  | cons x xs ih =>
      intro ys br hxb hyb hbr hlen hval
      have hx : x < W32 := hxb x (List.mem_cons_self x xs)
      cases ys with
      | nil =>
          unfold subWords
          simp only [Nat.ofDigits_cons, Nat.ofDigits_nil] at hval ⊢
          by_cases hcase : x < br
          · rw [if_pos hcase]
            rw [ih [] 1 (fun w hw => hxb w (List.mem_cons_of_mem x hw))
              (by intro w hw; exact absurd hw (by simp)) le_rfl (by simp) (by
                simp only [Nat.ofDigits_nil]
                simp only [hW] at *
                omega)]
            simp only [Nat.ofDigits_nil]
            simp only [hW] at *
            omega
          · rw [if_neg hcase]
            rw [ih [] 0 (fun w hw => hxb w (List.mem_cons_of_mem x hw))
              (by intro w hw; exact absurd hw (by simp)) (by omega) (by simp) (by
                simp only [Nat.ofDigits_nil]; omega)]
            simp only [Nat.ofDigits_nil]
            simp only [hW] at *
            omega
      | cons y ys =>
          have hy : y < W32 := hyb y (List.mem_cons_self y ys)
          unfold subWords
          simp only [Nat.ofDigits_cons] at hval ⊢
          have hlen' : ys.length ≤ xs.length := by simp at hlen; omega
          by_cases hcase : x < y + br
          · rw [if_pos hcase]
            rw [ih ys 1 (fun w hw => hxb w (List.mem_cons_of_mem x hw))
              (fun w hw => hyb w (List.mem_cons_of_mem y hw)) le_rfl hlen' (by
                simp only [hW] at *
                omega)]
            simp only [hW] at *
            omega
          · rw [if_neg hcase]
            rw [ih ys 0 (fun w hw => hxb w (List.mem_cons_of_mem x hw))
              (fun w hw => hyb w (List.mem_cons_of_mem y hw)) (by omega) hlen' (by
                simp only [hW] at *
                omega)]
            simp only [hW] at *
            omega

/-- Dropping leading zeros of a reversed digit list preserves the value of
the original list. -/
theorem ofDigits_dropWhile_zero :
    ∀ z : List Nat, Nat.ofDigits W32 (z.dropWhile (· = 0)).reverse =
      Nat.ofDigits W32 z.reverse := by
  intro z
  induction z with
  | nil => rfl
  | cons w z ih =>
      rw [List.dropWhile_cons]
      by_cases hw : w = 0
      · rw [if_pos (by simp [hw]), ih, List.reverse_cons, Nat.ofDigits_append,
          Nat.ofDigits_singleton, hw]
        simp
      · rw [if_neg (by simp [hw])]

/-- Renormalization preserves the numeric value. -/
theorem trimZeros_val (l : List Nat) :
    Nat.ofDigits W32 (trimZeros l) = Nat.ofDigits W32 l := by
  unfold trimZeros
  rw [ofDigits_dropWhile_zero l.reverse, List.reverse_reverse]

/-- Renormalization only keeps words of the input list. -/
theorem trimZeros_subset (l : List Nat) : ∀ w ∈ trimZeros l, w ∈ l := by
  intro w hw
  unfold trimZeros at hw
  have h1 : w ∈ (l.reverse).dropWhile (· = 0) := List.mem_reverse.mp hw
  exact List.mem_reverse.mp ((List.dropWhile_sublist (l := l.reverse) (· = 0)).subset h1)

/-- Renormalization leaves a nonzero leading word. -/
theorem trimZeros_norm (l : List Nat) :
    ∀ h : trimZeros l ≠ [], (trimZeros l).getLast h ≠ 0 := by
  intro h
  unfold trimZeros at h ⊢
  have hne : (l.reverse).dropWhile (· = 0) ≠ [] := by
    intro hc; rw [hc] at h; exact h rfl
  rw [List.getLast_reverse]
  have := List.head_dropWhile_not (· = 0) l.reverse hne
  simpa using this

/-- A word list that is in-range and normalized is exactly the base-2^32
digit expansion of its value. -/
theorem normWords_digits (l : List Nat) (hlt : ∀ w ∈ l, w < W32)
    (hnorm : ∀ h : l ≠ [], l.getLast h ≠ 0) :
    Nat.digits W32 (Nat.ofDigits W32 l) = l :=
  Nat.digits_ofDigits W32 (by norm_num [W32]) l hlt hnorm

/-- The normal-form constructor produces exactly the digit expansion. -/
theorem bigint_ofNat_words (n : Nat) : bigint_ofNat n = ⟨Nat.digits W32 n⟩ := by
  unfold bigint_ofNat
  rw [natDigitsF_eq_digits W32 (by norm_num [W32]) n n le_rfl]

/-- Converting a big integer to its value and back is the identity on
in-range normalized representations. -/
theorem bigint_ofNat_toNat (b : bigint_t) (hlt : ∀ w ∈ b.words, w < W32)
    (hnorm : ∀ h : b.words ≠ [], b.words.getLast h ≠ 0) :
    bigint_ofNat (bigint_to_nat b) = b := by
  rw [bigint_ofNat_words]
  unfold bigint_to_nat
  rw [normWords_digits b.words hlt hnorm]

/-- The value of the normal-form constructor is the given number. -/
theorem bigint_toNat_ofNat (n : Nat) : bigint_to_nat (bigint_ofNat n) = n := by
  rw [bigint_ofNat_words]
  unfold bigint_to_nat
  exact Nat.ofDigits_digits W32 n

/-- The digit count is monotone in the value. -/
theorem digitsLen_mono (m n : Nat) (h : m ≤ n) :
    (Nat.digits W32 m).length ≤ (Nat.digits W32 n).length := by
  by_cases hm : m = 0
  · simp [hm]
  · have hn : n ≠ 0 := by omega
    rw [Nat.digits_len W32 m (by norm_num [W32]) hm,
      Nat.digits_len W32 n (by norm_num [W32]) hn]
    have := Nat.log_mono_right (b := W32) h
    omega

/-- The normal-form constructor is well-formed whenever the digit count fits
the capacity. -/
theorem bigint_ofNat_wf (n : Nat)
    (hlen : (Nat.digits W32 n).length ≤ BIGINT_4096_WORDS) :
    bigint_wf (bigint_ofNat n) := by
  rw [bigint_ofNat_words]
  refine ⟨fun w hw => Nat.digits_lt_base (by norm_num [W32]) hw, hlen, ?_⟩
  intro h
  have hn : n ≠ 0 := by
    intro hc
    subst hc
    simp at h
  exact Nat.getLast_digit_ne_zero W32 hn

/-- C7: for well-formed big integers, when `a ≥ b` the subtraction succeeds
with the normalized representation of `a - b` (no zero leading word) and
adding `b` back returns exactly `a`; when `a < b` the subtraction fails with
`Underflow`. -/
theorem claim_C7_sub_add_roundtrip (a b : bigint_t) (ha : bigint_wf a) (hb : bigint_wf b) :
    (bigint_to_nat b ≤ bigint_to_nat a →
      bigint_sub a b = .ok (bigint_ofNat (bigint_to_nat a - bigint_to_nat b)) ∧
      (∀ h : (bigint_ofNat (bigint_to_nat a - bigint_to_nat b)).words ≠ [],
        (bigint_ofNat (bigint_to_nat a - bigint_to_nat b)).words.getLast h ≠ 0) ∧
      bigint_add (bigint_ofNat (bigint_to_nat a - bigint_to_nat b)) b = .ok a) ∧
    (bigint_to_nat a < bigint_to_nat b → bigint_sub a b = .error .underflow) := by
  obtain ⟨hcl, hce⟩ := bigint_compare_spec a b ha hb
  constructor
  · intro hge
    have hnlt : ¬bigint_compare a b < 0 := fun hc => by
      have := hcl.mp hc; omega
    have hblen : b.words.length ≤ a.words.length := by
      by_contra hc
      push_neg at hc
      have hbne : b.words ≠ [] := by
        intro h0; rw [h0] at hc; simp at hc
      have hlow : W32 ^ (b.words.length - 1) ≤ bigint_to_nat b :=
        ofDigits_ge_pow W32 (by norm_num [W32]) b.words hbne (hb.2.2 hbne)
      have hup : bigint_to_nat a < W32 ^ a.words.length :=
        Nat.ofDigits_lt_base_pow_length (by norm_num [W32]) ha.1
      have hpow : W32 ^ a.words.length ≤ W32 ^ (b.words.length - 1) :=
        Nat.pow_le_pow_right (by norm_num [W32]) (by omega)
      omega
    have hsubv : Nat.ofDigits W32 (subWords a.words b.words 0) =
        bigint_to_nat a - bigint_to_nat b := by
      have := subWords_val a.words b.words 0 ha.1 hb.1 (by omega) hblen
        (by unfold bigint_to_nat at hge; omega)
      unfold bigint_to_nat
      omega
    have hws : trimZeros (subWords a.words b.words 0) =
        Nat.digits W32 (bigint_to_nat a - bigint_to_nat b) := by
      have h1 : Nat.ofDigits W32 (trimZeros (subWords a.words b.words 0)) =
          bigint_to_nat a - bigint_to_nat b := by
        rw [trimZeros_val]; exact hsubv
      rw [← h1]
      exact (normWords_digits _
        (fun w hw => subWords_lt a.words b.words 0 w (trimZeros_subset _ w hw))
        (trimZeros_norm _)).symm
    have hsub : bigint_sub a b = .ok (bigint_ofNat (bigint_to_nat a - bigint_to_nat b)) := by
      unfold bigint_sub
      rw [if_neg hnlt, bigint_ofNat_words, hws]
    refine ⟨hsub, ?_, ?_⟩
    · rw [bigint_ofNat_words]
      intro h
      have h' : Nat.digits W32 (bigint_to_nat a - bigint_to_nat b) ≠ [] := h
      have hnz := Nat.digits_ne_nil_iff_ne_zero.mp h'
      exact Nat.getLast_digit_ne_zero W32 hnz
    · have hdwf : ∀ w ∈ (bigint_ofNat (bigint_to_nat a - bigint_to_nat b)).words, w < W32 := by
        rw [bigint_ofNat_words]
        exact fun w hw => Nat.digits_lt_base (by norm_num [W32]) hw
      have haddv : Nat.ofDigits W32
          (addWords (bigint_ofNat (bigint_to_nat a - bigint_to_nat b)).words b.words 0) =
          bigint_to_nat a := by
        rw [addWords_val _ _ 0 hdwf hb.1 (by norm_num [W32])]
        have hv : Nat.ofDigits W32 (bigint_ofNat (bigint_to_nat a - bigint_to_nat b)).words =
            bigint_to_nat a - bigint_to_nat b := bigint_toNat_ofNat _
        unfold bigint_to_nat at hv hge ⊢
        omega
      have h1 : Nat.ofDigits W32 (trimZeros
          (addWords (bigint_ofNat (bigint_to_nat a - bigint_to_nat b)).words b.words 0)) =
          bigint_to_nat a := by
        rw [trimZeros_val]; exact haddv
      have h2 := normWords_digits
        (trimZeros (addWords (bigint_ofNat (bigint_to_nat a - bigint_to_nat b)).words b.words 0))
        (fun w hw => addWords_lt _ _ 0 w (trimZeros_subset _ w hw))
        (trimZeros_norm _)
      rw [h1] at h2
      have h3 : Nat.digits W32 (bigint_to_nat a) = a.words :=
        normWords_digits a.words ha.1 ha.2.2
      rw [h3] at h2
      unfold bigint_add
      dsimp only
      rw [← h2]
      rw [if_neg (by push_neg; exact ha.2.1)]
  · intro hlt
    unfold bigint_sub
    rw [if_pos (hcl.mpr hlt)]

/-- Witness for C7 at the well-formed pair with values 2^40 + 5 and 2^40. -/
theorem claim_C7_sub_add_roundtrip_witness :
    (bigint_sub (bigint_ofNat 1099511627781) (bigint_ofNat 1099511627776) =
      .ok (bigint_ofNat 5) ∧
     bigint_add (bigint_ofNat 5) (bigint_ofNat 1099511627776) =
      .ok (bigint_ofNat 1099511627781)) ∧
    bigint_sub (bigint_ofNat 1099511627776) (bigint_ofNat 1099511627781) =
      .error .underflow := by
  have hwa : bigint_wf (bigint_ofNat 1099511627781) :=
    bigint_ofNat_wf 1099511627781 (by
      rw [← natDigitsF_eq_digits W32 (by norm_num [W32]) 1099511627781 1099511627781 le_rfl]
      decide)
  have hwb : bigint_wf (bigint_ofNat 1099511627776) :=
    bigint_ofNat_wf 1099511627776 (by
      rw [← natDigitsF_eq_digits W32 (by norm_num [W32]) 1099511627776 1099511627776 le_rfl]
      decide)
  have hva : bigint_to_nat (bigint_ofNat 1099511627781) = 1099511627781 :=
    bigint_toNat_ofNat _
  have hvb : bigint_to_nat (bigint_ofNat 1099511627776) = 1099511627776 :=
    bigint_toNat_ofNat _
  obtain ⟨hmain, -⟩ :=
    claim_C7_sub_add_roundtrip (bigint_ofNat 1099511627781) (bigint_ofNat 1099511627776) hwa hwb
  obtain ⟨hsub, -, hadd⟩ := hmain (by rw [hva, hvb]; omega)
  obtain ⟨-, hunder⟩ :=
    claim_C7_sub_add_roundtrip (bigint_ofNat 1099511627776) (bigint_ofNat 1099511627781) hwb hwa
  rw [hva, hvb] at hsub hadd
  exact ⟨⟨hsub, hadd⟩, hunder (by rw [hva, hvb]; omega)⟩

/-- Horner evaluation of a reversed digit list equals its positional value. -/
theorem foldl_reverse_ofDigits (b : Nat) :
    ∀ l : List Nat, l.reverse.foldl (fun acc d => acc * b + d) 0 = Nat.ofDigits b l := by
  intro l
  induction l with
  | nil => simp [Nat.ofDigits_nil]
  | cons d l ih =>
      rw [List.reverse_cons, List.foldl_append, ih, Nat.ofDigits_cons]
      dsimp only [List.foldl]
      ring

/-- Horner folds agree when the digit post-processing is the identity on the
processed digits. -/
theorem foldl_horner_congr (b : Nat) (g : Nat → Nat) :
    ∀ l : List Nat, ∀ init : Nat, (∀ d ∈ l, g d = d) →
      l.foldl (fun acc d => acc * b + g d) init = l.foldl (fun acc d => acc * b + d) init := by
  intro l
  induction l with
  | nil => intro init _; rfl
  | cons d l ih =>
      intro init hg
      dsimp only [List.foldl]
      rw [hg d (List.mem_cons_self d l), ih (init * b + d)
        (fun e he => hg e (List.mem_cons_of_mem d he))]

/-- Hex digit characters decode back to their digits. -/
theorem hexVal_hexDigitChar : ∀ d, d < 16 → hexVal (hexDigitChar d) = d := by decide

/-- Hex digit characters pass the hex-digit test. -/
theorem isHex_hexDigitChar : ∀ d, d < 16 → isHexDigitCh (hexDigitChar d) = true := by decide

/-- Decimal digit characters decode back to their digits. -/
theorem decVal_decDigitChar : ∀ d, d < 10 → decVal (decDigitChar d) = d := by decide

/-- Decimal digit characters pass the decimal-digit test. -/
theorem isDec_decDigitChar : ∀ d, d < 10 → isDecDigit (decDigitChar d) = true := by decide

/-- Parsing the hex serialization of a value within capacity recovers the
normalized big integer of that value. -/
theorem from_hex_natToHexChars (v : Nat)
    (hlen : (Nat.digits W32 v).length ≤ BIGINT_4096_WORDS) :
    bigint_from_hex (natToHexChars v) = .ok (bigint_ofNat v) := by
  by_cases hv : v = 0
  · subst hv; rfl
  · have hd16 : natDigitsF 16 v v = Nat.digits 16 v :=
      natDigitsF_eq_digits 16 (by norm_num) v v le_rfl
    have hs : natToHexChars v = ((Nat.digits 16 v).map hexDigitChar).reverse := by
      unfold natToHexChars
      rw [if_neg hv, hd16]
    have hdne : Nat.digits 16 v ≠ [] := Nat.digits_ne_nil_iff_ne_zero.mpr hv
    have hsne : natToHexChars v ≠ [] := by
      rw [hs]
      intro hc
      rw [List.reverse_eq_nil_iff, List.map_eq_nil] at hc
      exact hdne hc
    have hall : (natToHexChars v).all isHexDigitCh = true := by
      rw [hs, List.all_eq_true]
      intro c hc
      rw [List.mem_reverse, List.mem_map] at hc
      obtain ⟨d, hd, rfl⟩ := hc
      exact isHex_hexDigitChar d (Nat.digits_lt_base (by norm_num) hd)
    have hfold : (natToHexChars v).foldl (fun acc c => acc * 16 + hexVal c) 0 = v := by
      rw [hs, ← List.map_reverse, List.foldl_map]
      have hcongr := foldl_horner_congr 16 (fun d => hexVal (hexDigitChar d))
        (Nat.digits 16 v).reverse 0
        (fun d hd => hexVal_hexDigitChar d
          (Nat.digits_lt_base (by norm_num) (List.mem_reverse.mp hd)))
      rw [hcongr, foldl_reverse_ofDigits, Nat.ofDigits_digits]
    unfold bigint_from_hex
    rw [if_neg hsne, if_pos hall]
    dsimp only
    rw [hfold, natDigitsF_eq_digits W32 (by norm_num [W32]) v v le_rfl,
      if_neg (by omega), bigint_ofNat_words]

/-- Parsing the decimal serialization of a value within capacity recovers
the normalized big integer of that value. -/
theorem from_decimal_natToDecChars (v : Nat)
    (hlen : (Nat.digits W32 v).length ≤ BIGINT_4096_WORDS) :
    bigint_from_decimal (natToDecChars v) = .ok (bigint_ofNat v) := by
  by_cases hv : v = 0
  · subst hv; rfl
  · have hd10 : natDigitsF 10 v v = Nat.digits 10 v :=
      natDigitsF_eq_digits 10 (by norm_num) v v le_rfl
    have hs : natToDecChars v = ((Nat.digits 10 v).map decDigitChar).reverse := by
      unfold natToDecChars
      rw [if_neg hv, hd10]
    have hdne : Nat.digits 10 v ≠ [] := Nat.digits_ne_nil_iff_ne_zero.mpr hv
    have hsne : natToDecChars v ≠ [] := by
      rw [hs]
      intro hc
      rw [List.reverse_eq_nil_iff, List.map_eq_nil] at hc
      exact hdne hc
    have hall : (natToDecChars v).all isDecDigit = true := by
      rw [hs, List.all_eq_true]
      intro c hc
      rw [List.mem_reverse, List.mem_map] at hc
      obtain ⟨d, hd, rfl⟩ := hc
      exact isDec_decDigitChar d (Nat.digits_lt_base (by norm_num) hd)
    have hfold : (natToDecChars v).foldl (fun acc c => acc * 10 + decVal c) 0 = v := by
      rw [hs, ← List.map_reverse, List.foldl_map]
      have hcongr := foldl_horner_congr 10 (fun d => decVal (decDigitChar d))
        (Nat.digits 10 v).reverse 0
        (fun d hd => decVal_decDigitChar d
          (Nat.digits_lt_base (by norm_num) (List.mem_reverse.mp hd)))
      rw [hcongr, foldl_reverse_ofDigits, Nat.ofDigits_digits]
    unfold bigint_from_decimal
    rw [if_neg hsne, if_pos hall]
    dsimp only
    rw [hfold, natDigitsF_eq_digits W32 (by norm_num [W32]) v v le_rfl,
      if_neg (by omega), bigint_ofNat_words]

/-- C6: for every well-formed big integer and sufficiently large buffers,
hex and decimal serialization succeed and parsing the serialized text back
yields a big integer equal to the original. -/
theorem claim_C6_serialize_parse_roundtrip (x : bigint_t) (hwf : bigint_wf x)
    (bufh bufd : Nat)
    (hbh : (natToHexChars (bigint_to_nat x)).length + 1 ≤ bufh)
    (hbd : (natToDecChars (bigint_to_nat x)).length + 1 ≤ bufd) :
    bigint_to_hex x bufh = .ok (natToHexChars (bigint_to_nat x)) ∧
    bigint_from_hex (natToHexChars (bigint_to_nat x)) = .ok x ∧
    bigint_to_decimal x bufd = .ok (natToDecChars (bigint_to_nat x)) ∧
    bigint_from_decimal (natToDecChars (bigint_to_nat x)) = .ok x := by
  have hlen : (Nat.digits W32 (bigint_to_nat x)).length ≤ BIGINT_4096_WORDS := by
    have h3 : Nat.digits W32 (bigint_to_nat x) = x.words :=
      normWords_digits x.words hwf.1 hwf.2.2
    rw [h3]; exact hwf.2.1
  have hofx : bigint_ofNat (bigint_to_nat x) = x := bigint_ofNat_toNat x hwf.1 hwf.2.2
  refine ⟨?_, ?_, ?_, ?_⟩
  · unfold bigint_to_hex
    dsimp only
    rw [if_neg (by omega)]
  · rw [from_hex_natToHexChars _ hlen, hofx]
  · unfold bigint_to_decimal
    dsimp only
    rw [if_neg (by omega)]
  · rw [from_decimal_natToDecChars _ hlen, hofx]

/-- Witness for C6 at the value 123456789012345 with buffer size 64. -/
theorem claim_C6_serialize_parse_roundtrip_witness :
    bigint_to_hex (bigint_ofNat 123456789012345) 64 =
      .ok (natToHexChars (bigint_to_nat (bigint_ofNat 123456789012345))) ∧
    bigint_from_hex (natToHexChars (bigint_to_nat (bigint_ofNat 123456789012345))) =
      .ok (bigint_ofNat 123456789012345) ∧
    bigint_to_decimal (bigint_ofNat 123456789012345) 64 =
      .ok (natToDecChars (bigint_to_nat (bigint_ofNat 123456789012345))) ∧
    bigint_from_decimal (natToDecChars (bigint_to_nat (bigint_ofNat 123456789012345))) =
      .ok (bigint_ofNat 123456789012345) :=
  claim_C6_serialize_parse_roundtrip (bigint_ofNat 123456789012345)
    (bigint_ofNat_wf 123456789012345 (by
      rw [← natDigitsF_eq_digits W32 (by norm_num [W32]) 123456789012345 123456789012345 le_rfl]
      decide))
    64 64 (by decide) (by decide)

/-- Every number is below the word radix raised to its word length. -/
theorem lt_pow_wordLen (n : Nat) : n < W32 ^ wordLen n := by
  unfold wordLen
  rw [natDigitsF_eq_digits W32 (by norm_num [W32]) n n le_rfl]
  conv_lhs => rw [← Nat.ofDigits_digits W32 n]
  exact Nat.ofDigits_lt_base_pow_length (by norm_num [W32])
    (fun d hd => Nat.digits_lt_base (by norm_num [W32]) hd)

/-- Initialization on an odd modulus succeeds, fills the context fields, and
computes a word-level constant with `n * n' ≡ -1 (mod 2^32)`; above the word
threshold the optional inverse is skipped. -/
theorem montgomery_ctx_init_odd (n : Nat) (hodd : n % 2 = 1) :
    ∃ np rinv, montgomery_ctx_init montgomery_ctx_zero n =
      (.ok (), ⟨n, wordLen n, wordLen n + 1, np, rinv, true⟩) ∧
      (n * np + 1) % W32 = 0 ∧
      (MONT_RINV_WORD_LIMIT < wordLen n → rinv = none) := by
  have hn0 : n ≠ 0 := by omega
  have hlow_odd : (n % W32) % 2 = 1 := by
    rw [Nat.mod_mod_of_dvd n (by norm_num [W32] : 2 ∣ W32)]
    exact hodd
  have hcop : Nat.gcd (n % W32) W32 = 1 := by
    have h2 : Nat.Coprime (n % W32) 2 :=
      Nat.coprime_comm.mp ((Nat.prime_two.coprime_iff_not_dvd).mpr (by omega))
    have h32 : Nat.Coprime (n % W32) (2 ^ 32) := Nat.Coprime.pow_right 32 h2
    rw [show W32 = 2 ^ 32 by norm_num [W32]]
    exact h32
  obtain ⟨x, hok, hxlt, hmod⟩ := (extended_gcd_full_spec (n % W32) W32).2.1 hcop
  have hxW : x < W32 := hxlt (by norm_num [W32])
  have hmod1 : (n % W32 * x) % W32 = 1 := by
    rw [hmod]; norm_num [W32]
  have hx0 : x ≠ 0 := by
    intro hc
    rw [hc, Nat.mul_zero, Nat.zero_mod] at hmod1
    exact absurd hmod1 (by norm_num)
  have hinit : montgomery_ctx_init montgomery_ctx_zero n =
      (.ok (), ⟨n, wordLen n, wordLen n + 1, (W32 - x) % W32,
        montgomery_rinv_opt n, true⟩) := by
    unfold montgomery_ctx_init
    rw [if_neg hn0, if_neg (by omega), hok]
  refine ⟨(W32 - x) % W32, montgomery_rinv_opt n, hinit, ?_, ?_⟩
  · have hsub : (W32 - x) % W32 = W32 - x := Nat.mod_eq_of_lt (by omega)
    rw [hsub]
    have hnx : (n * x) % W32 = 1 := by
      rw [← Nat.mod_mul_mod]; exact hmod1
    have hk := Nat.div_add_mod (n * x) W32
    rw [hnx] at hk
    have hexp : n * (W32 - x) + n * x = n * W32 := by
      rw [← Nat.mul_add]
      congr 1
      omega
    have hW : W32 = 4294967296 := rfl
    simp only [hW] at *
    omega
  · intro hbig
    unfold montgomery_rinv_opt
    rw [if_neg (by omega)]

/-- One REDC step produces a multiple of the word radix. -/
theorem redc_step_dvd (n np t : Nat) (hnp : (n * np + 1) % W32 = 0) :
    W32 ∣ (t + t % W32 * np % W32 * n) := by
  rw [← Nat.modEq_zero_iff_dvd]
  have h1 : Nat.ModEq W32 (t % W32 * np % W32) (t * np) := by
    calc t % W32 * np % W32 ≡ t % W32 * np [MOD W32] := Nat.mod_modEq _ _
      _ ≡ t * np [MOD W32] := Nat.ModEq.mul_right np (Nat.mod_modEq t W32)
  have h2 : Nat.ModEq W32 (t + t % W32 * np % W32 * n) (t * (n * np + 1)) := by
    calc t + t % W32 * np % W32 * n
        ≡ t + t * np * n [MOD W32] := Nat.ModEq.add_left t (Nat.ModEq.mul_right n h1)
      _ = t * (n * np + 1) := by ring
  have h3 : Nat.ModEq W32 (t * (n * np + 1)) 0 := by
    have : Nat.ModEq W32 (n * np + 1) 0 := by
      unfold Nat.ModEq
      rw [hnp, Nat.zero_mod]
    calc t * (n * np + 1) ≡ t * 0 [MOD W32] := Nat.ModEq.mul_left t this
      _ = 0 := by ring
  exact h2.trans h3

/-- The REDC word loop divides out one radix power modulo `n`. -/
theorem redcLoop_modeq (n np : Nat) (hnp : (n * np + 1) % W32 = 0) :
    ∀ k t, Nat.ModEq n (redcLoop n np k t * W32 ^ k) t := by
  intro k
  induction k with
  | zero =>
      intro t
      rw [pow_zero, Nat.mul_one]
      exact Nat.ModEq.refl _
  | succ k ih =>
      intro t
      have hdvd := redc_step_dvd n np t hnp
      have hWt : W32 * ((t + t % W32 * np % W32 * n) / W32) =
          t + t % W32 * np % W32 * n := Nat.mul_div_cancel' hdvd
      rw [redcLoop]
      calc redcLoop n np k ((t + t % W32 * np % W32 * n) / W32) * W32 ^ (k + 1)
          = (redcLoop n np k ((t + t % W32 * np % W32 * n) / W32) * W32 ^ k) * W32 := by
            rw [pow_succ]; ring
        _ ≡ ((t + t % W32 * np % W32 * n) / W32) * W32 [MOD n] :=
            Nat.ModEq.mul_right W32 (ih _)
        _ = t + t % W32 * np % W32 * n := by rw [Nat.mul_comm] at hWt; exact hWt
        _ ≡ t [MOD n] := by
            unfold Nat.ModEq
            rw [Nat.add_mul_mod_self_right]

/-- The REDC word loop keeps the accumulated value bounded. -/
theorem redcLoop_bound (n np : Nat) :
    ∀ k t, redcLoop n np k t * W32 ^ k ≤ t + (W32 ^ k - 1) * n := by
  intro k
  induction k with
  | zero =>
      intro t
      simp [redcLoop]
  | succ k ih =>
      intro t
      have hm0 : t % W32 * np % W32 ≤ W32 - 1 := by
        have := Nat.mod_lt (t % W32 * np) (show 0 < W32 by norm_num [W32])
        omega
      have hP1 : 1 ≤ W32 ^ k := Nat.one_le_pow k W32 (by norm_num [W32])
      have hRn : n ≤ W32 ^ k * n := Nat.le_mul_of_pos_left n (by omega)
      rw [redcLoop]
      calc redcLoop n np k ((t + t % W32 * np % W32 * n) / W32) * W32 ^ (k + 1)
          = (redcLoop n np k ((t + t % W32 * np % W32 * n) / W32) * W32 ^ k) * W32 := by
            rw [pow_succ]; ring
        _ ≤ ((t + t % W32 * np % W32 * n) / W32 + (W32 ^ k - 1) * n) * W32 :=
            Nat.mul_le_mul_right W32 (ih _)
        _ = (t + t % W32 * np % W32 * n) / W32 * W32 + (W32 ^ k - 1) * n * W32 := by ring
        _ ≤ (t + t % W32 * np % W32 * n) + (W32 ^ k - 1) * n * W32 := by
            have := Nat.div_mul_le_self (t + t % W32 * np % W32 * n) W32
            omega
        _ ≤ t + (W32 - 1) * n + (W32 ^ k - 1) * n * W32 := by
            have := Nat.mul_le_mul_right n hm0
            omega
        _ = t + (W32 ^ (k + 1) - 1) * n := by
            have h1 : (W32 ^ k - 1) * n * W32 = W32 * (W32 ^ k * n) - W32 * n := by
              rw [Nat.sub_mul, one_mul, Nat.sub_mul]
              ring_nf
            have h2 : (W32 ^ (k + 1) - 1) * n = W32 * (W32 ^ k * n) - n := by
              rw [Nat.sub_mul, one_mul, pow_succ']
              ring_nf
            have h3 : (W32 - 1) * n = W32 * n - n := by
              rw [Nat.sub_mul, one_mul]
            have h4 : W32 * n ≤ W32 * (W32 ^ k * n) :=
              Nat.mul_le_mul_left W32 hRn
            have h5 : n ≤ W32 * n := Nat.le_mul_of_pos_left n (by norm_num [W32])
            omega

/-- Montgomery reduction of an input below `R * n` lands strictly below `n`
and equals the input times `R^(-1)` modulo `n`. -/
theorem mont_redc_spec (ctx : montgomery_ctx_t)
    (hnp : (ctx.n * ctx.n_prime + 1) % W32 = 0) (hn : 0 < ctx.n)
    (t : Nat) (ht : t < W32 ^ ctx.n_words * ctx.n) :
    mont_redc ctx t < ctx.n ∧
    Nat.ModEq ctx.n (mont_redc ctx t * W32 ^ ctx.n_words) t := by
  have hP1 : 1 ≤ W32 ^ ctx.n_words := Nat.one_le_pow _ W32 (by norm_num [W32])
  have hb := redcLoop_bound ctx.n ctx.n_prime ctx.n_words t
  have hc := redcLoop_modeq ctx.n ctx.n_prime hnp ctx.n_words t
  have hsubm : (W32 ^ ctx.n_words - 1) * ctx.n = W32 ^ ctx.n_words * ctx.n - ctx.n := by
    rw [Nat.sub_mul, one_mul]
  have hlt2 : redcLoop ctx.n ctx.n_prime ctx.n_words t < 2 * ctx.n := by
    have h2 : redcLoop ctx.n ctx.n_prime ctx.n_words t * W32 ^ ctx.n_words <
        2 * ctx.n * W32 ^ ctx.n_words := by
      have : t + (W32 ^ ctx.n_words - 1) * ctx.n < 2 * (W32 ^ ctx.n_words * ctx.n) := by
        omega
      have h3 : 2 * (W32 ^ ctx.n_words * ctx.n) = 2 * ctx.n * W32 ^ ctx.n_words := by ring
      omega
    exact Nat.lt_of_mul_lt_mul_right h2
  unfold mont_redc
  by_cases hcase : ctx.n ≤ redcLoop ctx.n ctx.n_prime ctx.n_words t
  · rw [if_pos hcase]
    refine ⟨by omega, ?_⟩
    have heq : (redcLoop ctx.n ctx.n_prime ctx.n_words t - ctx.n) * W32 ^ ctx.n_words +
        ctx.n * W32 ^ ctx.n_words =
        redcLoop ctx.n ctx.n_prime ctx.n_words t * W32 ^ ctx.n_words := by
      rw [← Nat.add_mul]
      congr 1
      omega
    calc (redcLoop ctx.n ctx.n_prime ctx.n_words t - ctx.n) * W32 ^ ctx.n_words
        ≡ (redcLoop ctx.n ctx.n_prime ctx.n_words t - ctx.n) * W32 ^ ctx.n_words +
          ctx.n * W32 ^ ctx.n_words [MOD ctx.n] := by
          unfold Nat.ModEq
          rw [Nat.add_mul_mod_self_left]
      _ = redcLoop ctx.n ctx.n_prime ctx.n_words t * W32 ^ ctx.n_words := heq
      _ ≡ t [MOD ctx.n] := hc
  · rw [if_neg hcase]
    exact ⟨by omega, hc⟩

/-- Montgomery REDC multiplication of two reduced inputs stays reduced and
computes `a * b * R^(-1) mod n`. -/
theorem mont_mul_spec (ctx : montgomery_ctx_t)
    (hnp : (ctx.n * ctx.n_prime + 1) % W32 = 0) (hn : 0 < ctx.n)
    (hle : ctx.n ≤ W32 ^ ctx.n_words) (a b : Nat) (han : a < ctx.n) (hbn : b < ctx.n) :
    mont_mul ctx a b < ctx.n ∧
    Nat.ModEq ctx.n (mont_mul ctx a b * W32 ^ ctx.n_words) (a * b) := by
  have hab : a * b < W32 ^ ctx.n_words * ctx.n := by
    calc a * b < ctx.n * ctx.n := by
          rcases Nat.eq_zero_or_pos (a * b) with h0 | h0
          · have := Nat.mul_pos hn hn; omega
          · exact Nat.mul_lt_mul_of_lt_of_le han (le_of_lt hbn) hn
      _ ≤ W32 ^ ctx.n_words * ctx.n := Nat.mul_le_mul_right ctx.n hle
  exact mont_redc_spec ctx hnp hn (a * b) hab

/-- The square-and-multiply loop keeps the accumulator reduced and congruent
to the Montgomery form of the partial power given by Horner evaluation of
the processed exponent bits. -/
theorem modExpLoop_spec (ctx : montgomery_ctx_t)
    (hnp : (ctx.n * ctx.n_prime + 1) % W32 = 0) (hn : 0 < ctx.n)
    (hle : ctx.n ≤ W32 ^ ctx.n_words)
    (hcop : Nat.gcd (W32 ^ ctx.n_words) ctx.n = 1)
    (x bb : Nat) (hbb : bb < ctx.n)
    (hbbm : Nat.ModEq ctx.n bb (x * W32 ^ ctx.n_words)) :
    ∀ bits acc v, (∀ d ∈ bits, d < 2) → acc < ctx.n →
      Nat.ModEq ctx.n acc (x ^ v * W32 ^ ctx.n_words) →
      modExpLoop ctx bb bits acc < ctx.n ∧
      Nat.ModEq ctx.n (modExpLoop ctx bb bits acc)
        (x ^ (bits.foldl (fun w d => w * 2 + d) v) * W32 ^ ctx.n_words) := by
  have hcop' : Nat.gcd ctx.n (W32 ^ ctx.n_words) = 1 := by
    rw [Nat.gcd_comm]; exact hcop
  intro bits
  induction bits with
  | nil =>
      intro acc v _ hacc hmeq
      exact ⟨hacc, hmeq⟩
  | cons d rest ih =>
      intro acc v hd hacc hmeq
      obtain ⟨hs1, hs2⟩ := mont_mul_spec ctx hnp hn hle acc acc hacc hacc
      have hsq : Nat.ModEq ctx.n (mont_mul ctx acc acc)
          (x ^ (v * 2) * W32 ^ ctx.n_words) := by
        refine Nat.ModEq.cancel_right_of_coprime hcop' ?_
        calc mont_mul ctx acc acc * W32 ^ ctx.n_words
            ≡ acc * acc [MOD ctx.n] := hs2
          _ ≡ (x ^ v * W32 ^ ctx.n_words) * (x ^ v * W32 ^ ctx.n_words) [MOD ctx.n] :=
              Nat.ModEq.mul hmeq hmeq
          _ = (x ^ (v * 2) * W32 ^ ctx.n_words) * W32 ^ ctx.n_words := by
              rw [show v * 2 = v + v by ring, pow_add]
              ring
      by_cases hd1 : d = 1
      · subst hd1
        obtain ⟨hm1, hm2⟩ := mont_mul_spec ctx hnp hn hle (mont_mul ctx acc acc) bb hs1 hbb
        have hmul : Nat.ModEq ctx.n (mont_mul ctx (mont_mul ctx acc acc) bb)
            (x ^ (v * 2 + 1) * W32 ^ ctx.n_words) := by
          refine Nat.ModEq.cancel_right_of_coprime hcop' ?_
          calc mont_mul ctx (mont_mul ctx acc acc) bb * W32 ^ ctx.n_words
              ≡ mont_mul ctx acc acc * bb [MOD ctx.n] := hm2
            _ ≡ (x ^ (v * 2) * W32 ^ ctx.n_words) * (x * W32 ^ ctx.n_words) [MOD ctx.n] :=
                Nat.ModEq.mul hsq hbbm
            _ = (x ^ (v * 2 + 1) * W32 ^ ctx.n_words) * W32 ^ ctx.n_words := by
                rw [pow_succ]
                ring
        have := ih (mont_mul ctx (mont_mul ctx acc acc) bb) (v * 2 + 1)
          (fun e he => hd e (List.mem_cons_of_mem 1 he)) hm1 hmul
        unfold modExpLoop
        simpa using this
      · have hd0 : d = 0 := by
          have := hd d (List.mem_cons_self d rest)
          omega
        subst hd0
        have := ih (mont_mul ctx acc acc) (v * 2)
          (fun e he => hd e (List.mem_cons_of_mem 0 he)) hs1 hsq
        unfold modExpLoop
        simpa using this

/-- The Montgomery-based modular exponentiation computes exactly
`base ^ exp mod n` on every odd modulus. -/
theorem bigint_mod_exp_correct (base exp n : Nat) (hodd : n % 2 = 1) :
    bigint_mod_exp base exp n = .ok (base ^ exp % n) := by
  have hn0 : n ≠ 0 := by omega
  have hnpos : 0 < n := by omega
  obtain ⟨np, rinv, hinit, hnp, -⟩ := montgomery_ctx_init_odd n hodd
  unfold bigint_mod_exp
  rw [if_neg hn0, if_neg (show ¬n % 2 = 0 by omega), hinit]
  dsimp only
  rw [if_neg (by simp)]
  have hle : n ≤ W32 ^ wordLen n := le_of_lt (lt_pow_wordLen n)
  have hcop : Nat.gcd (W32 ^ wordLen n) n = 1 := by
    have h2 : Nat.Coprime 2 n := (Nat.prime_two.coprime_iff_not_dvd).mpr (by omega)
    have hp : Nat.Coprime (2 ^ (32 * wordLen n)) n := Nat.Coprime.pow_left _ h2
    have hW : W32 ^ wordLen n = 2 ^ (32 * wordLen n) := by
      rw [show W32 = 2 ^ 32 by norm_num [W32], ← pow_mul]
    rw [hW]
    exact hp
  have hbits : ∀ d ∈ expBitsMSB exp, d < 2 := by
    unfold expBitsMSB
    rw [natDigitsF_eq_digits 2 le_rfl exp exp le_rfl]
    intro d hd
    exact Nat.digits_lt_base (by norm_num) (List.mem_reverse.mp hd)
  have hfold : (expBitsMSB exp).foldl (fun w d => w * 2 + d) 0 = exp := by
    unfold expBitsMSB
    rw [natDigitsF_eq_digits 2 le_rfl exp exp le_rfl, foldl_reverse_ofDigits,
      Nat.ofDigits_digits]
  have hbb : base % n * W32 ^ wordLen n % n < n := Nat.mod_lt _ hnpos
  have hbbm : Nat.ModEq n (base % n * W32 ^ wordLen n % n)
      (base % n * W32 ^ wordLen n) := Nat.mod_modEq _ n
  have hacc0 : W32 ^ wordLen n % n < n := Nat.mod_lt _ hnpos
  have hacc0m : Nat.ModEq n (W32 ^ wordLen n % n)
      ((base % n) ^ 0 * W32 ^ wordLen n) := by
    rw [pow_zero, one_mul]
    exact Nat.mod_modEq _ n
  obtain ⟨hf1, hf2⟩ := modExpLoop_spec
    ⟨n, wordLen n, wordLen n + 1, np, rinv, true⟩ hnp hnpos hle hcop
    (base % n) (base % n * W32 ^ wordLen n % n) hbb hbbm
    (expBitsMSB exp) (W32 ^ wordLen n % n) 0 hbits hacc0 hacc0m
  dsimp only at hf1 hf2
  rw [hfold] at hf2
  have hacclt : modExpLoop ⟨n, wordLen n, wordLen n + 1, np, rinv, true⟩
      (base % n * W32 ^ wordLen n % n) (expBitsMSB exp) (W32 ^ wordLen n % n) <
      W32 ^ wordLen n * n := by
    have h1 : n ≤ W32 ^ wordLen n * n :=
      Nat.le_mul_of_pos_left n (Nat.one_le_pow _ _ (by norm_num [W32]))
    omega
  obtain ⟨hr1, hr2⟩ := mont_redc_spec
    ⟨n, wordLen n, wordLen n + 1, np, rinv, true⟩ hnp hnpos _ hacclt
  dsimp only at hr1 hr2
  have hfin : Nat.ModEq n (mont_redc ⟨n, wordLen n, wordLen n + 1, np, rinv, true⟩
      (modExpLoop ⟨n, wordLen n, wordLen n + 1, np, rinv, true⟩
        (base % n * W32 ^ wordLen n % n) (expBitsMSB exp) (W32 ^ wordLen n % n)))
      (base ^ exp) := by
    have hcop' : Nat.gcd n (W32 ^ wordLen n) = 1 := by
      rw [Nat.gcd_comm]; exact hcop
    have hchain := Nat.ModEq.cancel_right_of_coprime hcop' (hr2.trans hf2)
    exact hchain.trans (Nat.ModEq.pow exp (Nat.mod_modEq base n))
  have hval : mont_redc ⟨n, wordLen n, wordLen n + 1, np, rinv, true⟩
      (modExpLoop ⟨n, wordLen n, wordLen n + 1, np, rinv, true⟩
        (base % n * W32 ^ wordLen n % n) (expBitsMSB exp) (W32 ^ wordLen n % n)) =
      base ^ exp % n := by
    have h1 := hfin
    unfold Nat.ModEq at h1
    rw [Nat.mod_eq_of_lt hr1] at h1
    exact h1
  rw [hval]

/-- A successful decimal parse yields a well-formed big integer. -/
theorem bigint_from_decimal_wf (s : List Char) (b : bigint_t)
    (h : bigint_from_decimal s = .ok b) : bigint_wf b := by
  unfold bigint_from_decimal at h
  by_cases h1 : s = []
  · rw [if_pos h1] at h; exact absurd h (by simp)
  · rw [if_neg h1] at h
    by_cases h2 : s.all isDecDigit
    · rw [if_pos h2] at h
      dsimp only at h
      rw [natDigitsF_eq_digits W32 (by norm_num [W32]) _ _ le_rfl] at h
      by_cases h3 : BIGINT_4096_WORDS <
          (Nat.digits W32 (s.foldl (fun acc c => acc * 10 + decVal c) 0)).length
      · rw [if_pos h3] at h; exact absurd h (by simp)
      · rw [if_neg h3] at h
        injection h with h4
        rw [← h4]
        have := bigint_ofNat_wf (s.foldl (fun acc c => acc * 10 + decVal c) 0) (by omega)
        rwa [bigint_ofNat_words] at this
    · rw [if_neg h2] at h; exact absurd h (by simp)

/-- A successful hex parse yields a well-formed big integer. -/
theorem bigint_from_hex_wf (s : List Char) (b : bigint_t)
    (h : bigint_from_hex s = .ok b) : bigint_wf b := by
  unfold bigint_from_hex at h
  by_cases h1 : s = []
  · rw [if_pos h1] at h; exact absurd h (by simp)
  · rw [if_neg h1] at h
    by_cases h2 : s.all isHexDigitCh
    · rw [if_pos h2] at h
      dsimp only at h
      rw [natDigitsF_eq_digits W32 (by norm_num [W32]) _ _ le_rfl] at h
      by_cases h3 : BIGINT_4096_WORDS <
          (Nat.digits W32 (s.foldl (fun acc c => acc * 16 + hexVal c) 0)).length
      · rw [if_pos h3] at h; exact absurd h (by simp)
      · rw [if_neg h3] at h
        injection h with h4
        rw [← h4]
        have := bigint_ofNat_wf (s.foldl (fun acc c => acc * 16 + hexVal c) 0) (by omega)
        rwa [bigint_ofNat_words] at this
    · rw [if_neg h2] at h; exact absurd h (by simp)

/-- Successful Montgomery initialization certifies a nonzero odd modulus. -/
theorem montgomery_ctx_init_ok_odd (c : montgomery_ctx_t) (n : Nat) (u : Unit)
    (ctx : montgomery_ctx_t) (h : montgomery_ctx_init c n = (.ok u, ctx)) :
    n ≠ 0 ∧ n % 2 = 1 := by
  unfold montgomery_ctx_init at h
  by_cases h0 : n = 0
  · rw [if_pos h0] at h; exact absurd h (by simp)
  · rw [if_neg h0] at h
    by_cases h2 : n % 2 = 0
    · rw [if_pos h2] at h; exact absurd h (by simp)
    · exact ⟨h0, by omega⟩

/-- A successfully loaded key holds the parsed modulus and exponent, and the
modulus passed the Montgomery odd-modulus check. -/
theorem rsa_4096_load_key_ok (ms es : List Char) (p : Bool) (key : rsa_4096_key_t)
    (h : rsa_4096_load_key ms es p = .ok key) :
    bigint_from_decimal ms = .ok key.n ∧ bigint_from_decimal es = .ok key.exponent ∧
    bigint_to_nat key.n % 2 = 1 := by
  unfold rsa_4096_load_key at h
  cases hm : bigint_from_decimal ms with
  | error e => rw [hm] at h; exact absurd h (by simp)
  | ok nb =>
      rw [hm] at h
      dsimp only at h
      cases he : bigint_from_decimal es with
      | error e => rw [he] at h; exact absurd h (by simp)
      | ok eb =>
          rw [he] at h
          dsimp only at h
          cases hmi : montgomery_ctx_init montgomery_ctx_zero (bigint_to_nat nb) with
          | mk r ctx =>
              rw [hmi] at h
              cases r with
              | error e => exact absurd h (by simp)
              | ok u =>
                  dsimp only at h
                  injection h with h2
                  obtain ⟨-, hodd⟩ :=
                    montgomery_ctx_init_ok_odd montgomery_ctx_zero (bigint_to_nat nb) u ctx hmi
                  rw [← h2]
                  exact ⟨rfl, rfl, hodd⟩

/-- C5: for every loaded public key and parsed message, encryption fails
with `MessageTooLarge` exactly when the message value is not strictly below
the modulus (never truncating or reducing it), and otherwise returns the hex
serialization of `message ^ e mod n` (given a large-enough buffer). -/
theorem claim_C5_encrypt_boundary (ms es msg : List Char) (bufsize : Nat)
    (key : rsa_4096_key_t) (mb : bigint_t)
    (hload : rsa_4096_load_key ms es false = .ok key)
    (hmsg : bigint_from_decimal msg = .ok mb) :
    (bigint_to_nat key.n ≤ bigint_to_nat mb →
      rsa_4096_encrypt key msg bufsize = .error .messageTooLarge) ∧
    (bigint_to_nat mb < bigint_to_nat key.n →
      (natToHexChars (bigint_to_nat mb ^ bigint_to_nat key.exponent %
        bigint_to_nat key.n)).length + 1 ≤ bufsize →
      rsa_4096_encrypt key msg bufsize =
        .ok (natToHexChars (bigint_to_nat mb ^ bigint_to_nat key.exponent %
          bigint_to_nat key.n))) := by
  obtain ⟨hn, he, hodd⟩ := rsa_4096_load_key_ok ms es false key hload
  have hwfn : bigint_wf key.n := bigint_from_decimal_wf ms key.n hn
  have hwfm : bigint_wf mb := bigint_from_decimal_wf msg mb hmsg
  obtain ⟨hcl, -⟩ := bigint_compare_spec mb key.n hwfm hwfn
  constructor
  · intro hge
    unfold rsa_4096_encrypt
    rw [hmsg]
    dsimp only
    rw [if_neg (by intro hc; have := hcl.mp hc; omega)]
  · intro hlt hbuf
    unfold rsa_4096_encrypt
    rw [hmsg]
    dsimp only
    rw [if_pos (hcl.mpr hlt),
      bigint_mod_exp_correct (bigint_to_nat mb) (bigint_to_nat key.exponent)
        (bigint_to_nat key.n) hodd]
    dsimp only
    unfold bigint_to_hex
    dsimp only
    rw [bigint_toNat_ofNat, if_neg (by omega)]

/-- Witness for C5 with the key `(143, 7)`: the message 200 is rejected as
too large and the message 42 encrypts to the hex form of `42^7 mod 143`. -/
theorem claim_C5_encrypt_boundary_witness :
    rsa_4096_encrypt key143pub ['2', '0', '0'] 512 = .error .messageTooLarge ∧
    rsa_4096_encrypt key143pub ['4', '2'] 512 =
      .ok (natToHexChars (bigint_to_nat (bigint_ofNat 42) ^
        bigint_to_nat key143pub.exponent % bigint_to_nat key143pub.n)) := by
  have h1 := claim_C5_encrypt_boundary ['1', '4', '3'] ['7'] ['2', '0', '0'] 512
    key143pub (bigint_ofNat 200) (by rfl) (by rfl)
  have h2 := claim_C5_encrypt_boundary ['1', '4', '3'] ['7'] ['4', '2'] 512
    key143pub (bigint_ofNat 42) (by rfl) (by rfl)
  exact ⟨h1.1 (by decide), h2.2 (by decide) (by decide)⟩

/-- C8: for every odd modulus whose word count exceeds the 32-word
threshold, Montgomery initialization skips the optional `R^(-1)`
precomputation (the field is absent) yet still activates the context, and
the context remains fully usable for REDC multiplication: on reduced inputs
the product stays reduced and satisfies the Montgomery congruence
`result * R ≡ a * b (mod n)`. -/
theorem claim_C8_large_modulus_skips_rinv (n : Nat) (hodd : n % 2 = 1)
    (hbig : MONT_RINV_WORD_LIMIT < wordLen n) :
    (montgomery_ctx_init montgomery_ctx_zero n).1 = .ok () ∧
    (montgomery_ctx_init montgomery_ctx_zero n).2.is_active = true ∧
    (montgomery_ctx_init montgomery_ctx_zero n).2.r_inv = none ∧
    (∀ a b, a < n → b < n →
      mont_mul ((montgomery_ctx_init montgomery_ctx_zero n).2) a b < n ∧
      (mont_mul ((montgomery_ctx_init montgomery_ctx_zero n).2) a b *
        W32 ^ wordLen n) % n = (a * b) % n) := by
  obtain ⟨np, rinv, hinit, hnp, hskip⟩ := montgomery_ctx_init_odd n hodd
  rw [hinit]
  dsimp only
  refine ⟨rfl, rfl, hskip hbig, ?_⟩
  intro a b ha hb
  obtain ⟨h1, h2⟩ := mont_mul_spec ⟨n, wordLen n, wordLen n + 1, np, rinv, true⟩
    hnp (show 0 < n by omega) (le_of_lt (lt_pow_wordLen n)) a b ha hb
  dsimp only at h1 h2
  exact ⟨h1, h2⟩

/-- Witness for C8 at the 34-word odd modulus `2^1056 + 1`, multiplying the
reduced inputs 1 and 1. -/
theorem claim_C8_large_modulus_skips_rinv_witness :
    (montgomery_ctx_init montgomery_ctx_zero bigOddModulus).2.is_active = true ∧
    (montgomery_ctx_init montgomery_ctx_zero bigOddModulus).2.r_inv = none ∧
    mont_mul ((montgomery_ctx_init montgomery_ctx_zero bigOddModulus).2) 1 1 <
      bigOddModulus := by
  obtain ⟨-, h2, h3, h4⟩ := claim_C8_large_modulus_skips_rinv bigOddModulus
    (by decide) (by decide)
  exact ⟨h2, h3, (h4 1 1 (by decide) (by decide)).1⟩

/-- C1: with the key triple `n = 143, e = 7, d = 103`, loading both keys
succeeds, encrypting the decimal message "42" under `(e, n)` yields the hex
ciphertext "51" (`42^7 mod 143 = 81 = 0x51`), and decrypting that ciphertext
under `(d, n)` returns the decimal string "42". -/
theorem claim_C1_rsa_roundtrip_143 :
    rsa_4096_load_key ['1', '4', '3'] ['7'] false = .ok key143pub ∧
    rsa_4096_load_key ['1', '4', '3'] ['1', '0', '3'] true = .ok key143priv ∧
    rsa_4096_encrypt key143pub ['4', '2'] 512 = .ok ['5', '1'] ∧
    rsa_4096_decrypt key143priv ['5', '1'] 512 = .ok ['4', '2'] :=
  ⟨rfl, rfl, rfl, rfl⟩
